import Mathlib

/-!
Shallow embedding of the suffix-sorting core of `bsdiff/math.go`
(ternary-split quicksort suffix sorter, match-length and binary-search
primitives), together with theorems checking the specification's claims
against it.

Conventions of the embedding:
* a Go `[]byte` is a `List ℕ` whose entries are byte values (`< 256`);
* Go `int32` values (array contents, indices, lengths) are `ℤ` — for the
  buffer sizes the 32-bit variant is documented for (< 2 GiB) no `int32`
  arithmetic in this file can overflow, so no wrap-around is modelled;
* Go slice reads/writes are total functions (`zget`/`zset`) that return `0`
  resp. do nothing out of bounds — the source relies on in-bounds accesses;
* loops whose termination rests on data invariants (the partition walks,
  the sweep of `I`, the doubling loop) take explicit fuel and return
  `Option`, with `none` meaning "fuel exhausted"; loops with a structurally
  evident iteration count are plain recursion.
-/

namespace Wharf

/-- Read `l[i]` for a signed index `i`; `0` when out of bounds. -/
def zget (l : List ℤ) (i : ℤ) : ℤ :=
  if 0 ≤ i then l.getD i.toNat 0 else 0

/-- Write `l[i] := v` for a signed index `i`; no-op when out of bounds. -/
def zset (l : List ℤ) (i v : ℤ) : List ℤ :=
  if 0 ≤ i then l.set i.toNat v else l

/-- The Go slice `buf[i:]` for a signed start index `i` (in-bounds use only). -/
def sufdrop (buf : List ℕ) (i : ℤ) : List ℕ :=
  buf.drop i.toNat

/-- `matchlen` from `bsdiff/math.go`: the number of leading bytes common to
`a` and `b` (the loop `for i < alen && i < blen && a[i] == b[i] { i++ }`). -/
def matchlen : List ℕ → List ℕ → ℕ
  | [], _ => 0
  | _ :: _, [] => 0
  | a :: as, b :: bs => if a = b then matchlen as bs + 1 else 0

/-- `matchlen64` from `bsdiff/math.go`: same loop as `matchlen` with `int64`
counters, which in this integer-width-free embedding is the same function. -/
def matchlen64 : List ℕ → List ℕ → ℕ
  | [], _ => 0
  | _ :: _, [] => 0
  | a :: as, b :: bs => if a = b then matchlen64 as bs + 1 else 0

/-- C6: `matchlen(a, b) = k` iff `a[0..k) = b[0..k)` and `k` hits the end of
`a`, or the end of `b`, or the first mismatch. -/
theorem matchlen_law (a b : List ℕ) (k : ℕ) :
    matchlen a b = k ↔
      (a.take k = b.take k ∧
        (k = a.length ∨ k = b.length ∨ a.getD k 0 ≠ b.getD k 0)) := by
  induction a generalizing b k with
  | nil =>
    cases k with
    | zero => simp [matchlen]
    | succ k =>
      cases b with
      | nil => simp [matchlen]
      | cons y bs => simp [matchlen]
  | cons x as ih =>
    cases b with
    | nil =>
      cases k with
      | zero => simp [matchlen]
      | succ k => simp [matchlen]
    | cons y bs =>
      by_cases hxy : x = y
      · subst hxy
        cases k with
        | zero => simp [matchlen]
        | succ k =>
          simp only [matchlen, if_pos rfl, if_true, List.take_succ_cons, List.cons.injEq, true_and,
            List.length_cons, Nat.add_right_cancel_iff, List.getD_cons_succ, Nat.succ.injEq]
          exact ih bs k
      · cases k with
        | zero => simp [matchlen, hxy, List.getD_cons_zero]
        | succ k => simp [matchlen, hxy]

/-- C10: `matchlen` is symmetric, and likewise `matchlen64`. -/
theorem matchlen_symm :
    (∀ a b : List ℕ, matchlen a b = matchlen b a) ∧
      (∀ a b : List ℕ, matchlen64 a b = matchlen64 b a) := by
  constructor
  · intro a
    induction a with
    | nil => intro b; cases b <;> simp [matchlen]
    | cons x as ih =>
      intro b
      cases b with
      | nil => simp [matchlen]
      | cons y bs =>
        by_cases hxy : x = y
        · subst hxy; simp [matchlen, ih]
        · simp [matchlen, hxy, Ne.symm hxy]
  · intro a
    induction a with
    | nil => intro b; cases b <;> simp [matchlen64]
    | cons x as ih =>
      intro b
      cases b with
      | nil => simp [matchlen64]
      | cons y bs =>
        by_cases hxy : x = y
        · subst hxy; simp [matchlen64, ih]
        · simp [matchlen64, hxy, Ne.symm hxy]

/-- `bytes.Compare` from Go's standard library, as used by `search`:
`-1`, `0`, `1` for lexicographically smaller / equal / larger. -/
def bytesCompare : List ℕ → List ℕ → ℤ
  | [], [] => 0
  | [], _ :: _ => -1
  | _ :: _, [] => 1
  | a :: as, b :: bs =>
    if a < b then -1 else if b < a then 1 else bytesCompare as bs

/-- `bytes.Compare(a, b) < 0` means exactly that `a` is lexicographically
less than `b` in byte order. -/
theorem bytesCompare_neg_iff (a : List ℕ) :
    ∀ b : List ℕ, bytesCompare a b < 0 ↔ List.Lex (· < ·) a b := by
  induction a with
  | nil =>
    intro b
    cases b with
    | nil =>
      constructor
      · intro h; norm_num [bytesCompare] at h
      · intro h; cases h
    | cons y bs =>
      constructor
      · intro _; exact List.Lex.nil
      · intro _; norm_num [bytesCompare]
  | cons x as ih =>
    intro b
    cases b with
    | nil =>
      constructor
      · intro h; norm_num [bytesCompare] at h
      · intro h; cases h
    | cons y bs =>
      rcases lt_trichotomy x y with hlt | heq | hgt
      · constructor
        · intro _; exact List.Lex.rel hlt
        · intro _; simp [bytesCompare, hlt]
      · subst heq
        constructor
        · intro h
          simp only [bytesCompare, lt_irrefl, if_false] at h
          exact List.Lex.cons ((ih bs).1 h)
        · intro h
          cases h with
          | rel hr => exact absurd hr (lt_irrefl x)
          | cons ht => simpa [bytesCompare] using (ih bs).2 ht
      · constructor
        · intro h
          simp [bytesCompare, hgt, not_lt.2 (le_of_lt hgt)] at h
        · intro h
          cases h with
          | rel hr => exact absurd hr (not_lt.2 (le_of_lt hgt))
          | cons ht => exact absurd rfl (ne_of_gt hgt)

/-- `search` from `bsdiff/math.go`: binary search over the suffix array `I`
of `obuf` for the suffix closest to `nbuf` on the window `[st, en]`. -/
def search (I : List ℤ) (obuf nbuf : List ℕ) (st en : ℤ) : ℤ × ℕ :=
  if en - st < 2 then
    let x := matchlen (sufdrop obuf (zget I st)) nbuf
    let y := matchlen (sufdrop obuf (zget I en)) nbuf
    if y < x then (zget I st, x) else (zget I en, y)
  else
    let mid := st + (en - st) / 2
    if bytesCompare (sufdrop obuf (zget I mid)) nbuf < 0 then
      search I obuf nbuf mid en
    else
      search I obuf nbuf st mid
termination_by (en - st).toNat
decreasing_by
  · omega
  · omega

/-- Auxiliary induction for `search`: the reported length is always the
common-prefix length of the returned suffix with the query. -/
theorem search_matchlen_aux (I : List ℤ) (obuf nbuf : List ℕ) :
    ∀ m : ℕ, ∀ st en : ℤ, (en - st).toNat = m →
      (search I obuf nbuf st en).2 =
        matchlen (sufdrop obuf (search I obuf nbuf st en).1) nbuf := by
  intro m
  induction m using Nat.strong_induction_on with
  | _ m ih =>
    intro st en hm
    rw [search]
    by_cases hbase : en - st < 2
    · simp only [if_pos hbase]
      by_cases hxy :
          matchlen (sufdrop obuf (zget I en)) nbuf <
            matchlen (sufdrop obuf (zget I st)) nbuf
      · simp [hxy]
      · simp [hxy]
    · simp only [if_neg hbase]
      by_cases hcmp :
          bytesCompare (sufdrop obuf (zget I (st + (en - st) / 2))) nbuf < 0
      · simp only [if_pos hcmp]
        exact ih (en - (st + (en - st) / 2)).toNat (by omega) _ _ rfl
      · simp only [if_neg hcmp]
        exact ih ((st + (en - st) / 2) - st).toNat (by omega) _ _ rfl

/-- C7: whenever `search` returns `(p, k)` on a window `0 ≤ st ≤ en ≤ n` of a
suffix array for `obuf`, the length `k` is exactly `matchlen(obuf[p:], nbuf)`. -/
theorem search_sound (I : List ℤ) (obuf nbuf : List ℕ) (st en : ℤ)
    (hst : 0 ≤ st) (hsten : st ≤ en) (hen : en ≤ (obuf.length : ℤ))
    (hlen : I.length = obuf.length + 1) :
    (search I obuf nbuf st en).2 =
      matchlen (sufdrop obuf (search I obuf nbuf st en).1) nbuf :=
  search_matchlen_aux I obuf nbuf (en - st).toNat st en rfl

/-- Witness for C7 at `I = [1, 0]`, `obuf = [5]`, `nbuf = [5]`, window `[0, 1]`. -/
theorem search_sound_witness :
    (0 : ℤ) ≤ 0 ∧
      (search [1, 0] [5] [5] 0 1).2 =
        matchlen (sufdrop [5] (search [1, 0] [5] [5] 0 1).1) [5] :=
  ⟨le_refl 0, search_sound [1, 0] [5] [5] 0 1 (by norm_num) (by norm_num)
    (by norm_num) (by norm_num)⟩

/-- C8: in the terminal window (`en - st < 2`), with `x`/`y` the match lengths
of the suffixes `I[st]`/`I[en]` against `nbuf`, `search` returns `(I[st], x)`
when `x > y` and `(I[en], y)` when `x ≤ y`; with a window of size at least 2 it
recurses on `[mid, en]` exactly when `obuf[I[mid]:]` is lexicographically less
than `nbuf`, else on `[st, mid]`. -/
theorem search_structure (I : List ℤ) (obuf nbuf : List ℕ) (st en : ℤ) :
    (en - st < 2 →
      (matchlen (sufdrop obuf (zget I en)) nbuf <
          matchlen (sufdrop obuf (zget I st)) nbuf →
        search I obuf nbuf st en =
          (zget I st, matchlen (sufdrop obuf (zget I st)) nbuf)) ∧
      (matchlen (sufdrop obuf (zget I st)) nbuf ≤
          matchlen (sufdrop obuf (zget I en)) nbuf →
        search I obuf nbuf st en =
          (zget I en, matchlen (sufdrop obuf (zget I en)) nbuf))) ∧
    (2 ≤ en - st →
      (List.Lex (· < ·) (sufdrop obuf (zget I (st + (en - st) / 2))) nbuf →
        search I obuf nbuf st en = search I obuf nbuf (st + (en - st) / 2) en) ∧
      (¬ List.Lex (· < ·) (sufdrop obuf (zget I (st + (en - st) / 2))) nbuf →
        search I obuf nbuf st en = search I obuf nbuf st (st + (en - st) / 2))) := by
  constructor
  · intro hbase
    constructor
    · intro hxy
      rw [search]
      simp [if_pos hbase, hxy]
    · intro hxy
      rw [search]
      simp [if_pos hbase, not_lt.2 hxy]
  · intro hrec
    have hb : ¬ en - st < 2 := by omega
    constructor
    · intro hlex
      rw [search]
      simp only [if_neg hb]
      rw [if_pos ((bytesCompare_neg_iff _ _).2 hlex)]
    · intro hlex
      rw [search]
      simp only [if_neg hb]
      rw [if_neg (fun hc => hlex ((bytesCompare_neg_iff _ _).1 hc))]

/-- Witness for C8: the terminal window on `I = [1, 0]`, `obuf = [5]`,
`nbuf = [5]` (tie goes to the `en` side) and the recursive window on
`I = [2, 1, 0]`, `obuf = [7, 7]`, `nbuf = [7]` (equal midpoint suffix, so the
lower half is taken). -/
theorem search_structure_witness :
    search [1, 0] [5] [5] 0 1 = (0, 1) ∧
      search [2, 1, 0] [7, 7] [7] 0 2 = search [2, 1, 0] [7, 7] [7] 0 1 := by
  constructor
  · have h := ((search_structure [1, 0] [5] [5] 0 1).1 (by norm_num)).2 (by decide)
    rw [h]; decide
  · have h := ((search_structure [2, 1, 0] [7, 7] [7] 0 2).2 (by norm_num)).2 ?_
    · rw [h]; norm_num
    · intro hlex
      have : sufdrop [7, 7] (zget [2, 1, 0] (0 + (2 - 0) / 2)) = [7] := by decide
      rw [this] at hlex
      cases hlex with
      | rel hr => exact absurd hr (lt_irrefl 7)
      | cons ht => cases ht

/-- The Go parallel assignment `I[i], I[j] = I[j], I[i]`. -/
def swap2 (l : List ℤ) (i j : ℤ) : List ℤ :=
  zset (zset l i (zget l j)) j (zget l i)

/-- The sort key `V[I[idx]+h]` of `split`.  In the source the key is read from
the array `split` also writes to when the caller aliases `V2` to `V`
(sequential mode, `split(I, V, V, …)`); `sameV = true` makes that explicit by
reading from the threaded `V2`, while `sameV = false` reads from the frozen
`V` (parallel mode, `split(I, V, V2, …)`). -/
def keyAt (sameV : Bool) (V V2 I : List ℤ) (idx h : ℤ) : ℤ :=
  zget (if sameV then V2 else V) (zget I idx + h)

/-- Inner scan of `split`'s selection-sort base case: starting at offset `i`
within the bucket at `k`, finds the smallest key `x`, gathers all entries
with that key next to slot `k`, and counts them in `j`. -/
def selScan (sameV : Bool) (V V2 : List ℤ) (h k : ℤ) :
    ℕ → List ℤ → ℤ → ℤ → ℤ → List ℤ × ℤ
  | 0, I, _, _, j => (I, j)
  | cnt + 1, I, i, x, j =>
    let key := keyAt sameV V V2 I (k + i) h
    let x1 := if key < x then key else x
    let j1 := if key < x then 0 else j
    if key = x1 then
      selScan sameV V V2 h k cnt (swap2 I (k + i) (k + j1)) (i + 1) x1 (j1 + 1)
    else
      selScan sameV V V2 h k cnt I (i + 1) x1 j1

/-- Commit loop of the base case: `V2[I[k+i]] = k + j - 1` for `i < j`. -/
def selCommit (k j : ℤ) : ℕ → List ℤ → List ℤ → ℤ → List ℤ
  | 0, _, V2, _ => V2
  | cnt + 1, I, V2, i =>
    selCommit k j cnt I (zset V2 (zget I (k + i)) (k + j - 1)) (i + 1)

/-- Outer loop of `split`'s selection-sort base case (`for k … k += j`). -/
def selOuter (sameV : Bool) (V : List ℤ) (start length h : ℤ) :
    ℕ → List ℤ → List ℤ → ℤ → Option (List ℤ × List ℤ)
  | 0, _, _, _ => none
  | fuel + 1, I, V2, k =>
    if k < start + length then
      let x0 := keyAt sameV V V2 I k h
      let scanned := selScan sameV V V2 h k (start + length - (k + 1)).toNat I 1 x0 1
      let I1 := scanned.1
      let j := scanned.2
      let V21 := selCommit k j j.toNat I1 V2 0
      let I2 := if j = 1 then zset I1 k (-1) else I1
      selOuter sameV V start length h fuel I2 V21 (k + j)
    else some (I, V2)

/-- Pivot-bucket counting scan of `split`'s recursive case: counts keys `< x`
and keys `= x` over `I[i .. i+steps)`. -/
def splitCount (sameV : Bool) (V V2 I : List ℤ) (x h : ℤ) :
    ℕ → ℤ → ℤ × ℤ → ℤ × ℤ
  | 0, _, acc => acc
  | cnt + 1, i, acc =>
    let key := keyAt sameV V V2 I i h
    splitCount sameV V V2 I x h cnt (i + 1)
      (if key < x then acc.1 + 1 else acc.1, if key = x then acc.2 + 1 else acc.2)

/-- First partition walk of `split` (`for i < jj`): pushes `=` entries to the
middle region and `>` entries to the tail. -/
def part1 (sameV : Bool) (V V2 : List ℤ) (x h jj kk : ℤ) :
    ℕ → List ℤ → ℤ → ℤ → ℤ → Option (List ℤ × ℤ × ℤ)
  | 0, _, _, _, _ => none
  | fuel + 1, I, i, j, k =>
    if i < jj then
      let key := keyAt sameV V V2 I i h
      if key < x then part1 sameV V V2 x h jj kk fuel I (i + 1) j k
      else if key = x then part1 sameV V V2 x h jj kk fuel (swap2 I i (jj + j)) i (j + 1) k
      else part1 sameV V V2 x h jj kk fuel (swap2 I i (kk + k)) i j (k + 1)
    else some (I, j, k)

/-- Second partition walk of `split` (`for jj+j < kk`): fixes up the `=`
region where `>` entries may remain. -/
def part2 (sameV : Bool) (V V2 : List ℤ) (x h jj kk : ℤ) :
    ℕ → List ℤ → ℤ → ℤ → Option (List ℤ)
  | 0, _, _, _ => none
  | fuel + 1, I, j, k =>
    if jj + j < kk then
      let key := keyAt sameV V V2 I (jj + j) h
      if key = x then part2 sameV V V2 x h jj kk fuel I (j + 1) k
      else part2 sameV V V2 x h jj kk fuel (swap2 I (jj + j) (kk + k)) j (k + 1)
    else some I

/-- Group-number commit for the `=` region: `V2[I[jj+i]] = kk - 1`. -/
def eqCommit (jj kk : ℤ) : ℕ → List ℤ → List ℤ → ℤ → List ℤ
  | 0, _, V2, _ => V2
  | cnt + 1, I, V2, i =>
    eqCommit jj kk cnt I (zset V2 (zget I (jj + i)) (kk - 1)) (i + 1)

/-- `split` from `bsdiff/math.go`: ternary-split quicksort of `I[start ..
start+length)` by the keys `V[I[·]+h]`, committing new group numbers (to the
threaded `V2`) and marking sorted singletons with `-1` in `I`.  Returns the
new `(I, V2)`; `none` when the fuel runs out. -/
def split (sameV : Bool) (V : List ℤ) :
    ℕ → List ℤ → List ℤ → ℤ → ℤ → ℤ → Option (List ℤ × List ℤ)
  | 0, _, _, _, _, _ => none
  | fuel + 1, I, V2, start, length, h =>
    if length < 16 then
      selOuter sameV V start length h (fuel + 1) I V2 start
    else
      let x := keyAt sameV V V2 I (start + length / 2) h
      let counts := splitCount sameV V V2 I x h length.toNat start (0, 0)
      let jj := start + counts.1
      let kk := jj + counts.2
      match part1 sameV V V2 x h jj kk (fuel + 1) I start 0 0 with
      | none => none
      | some (I1, j1, k1) =>
        match part2 sameV V V2 x h jj kk (fuel + 1) I1 j1 k1 with
        | none => none
        | some I2 =>
          match (if start < jj then split sameV V fuel I2 V2 start (jj - start) h
                 else some (I2, V2)) with
          | none => none
          | some (I3, V23) =>
            let V24 := eqCommit jj kk (kk - jj).toNat I3 V23 0
            let I4 := if jj = kk - 1 then zset I3 jj (-1) else I3
            if kk < start + length then
              split sameV V fuel I4 V24 kk (start + length - kk) h
            else some (I4, V24)

/-- Bucket initialisation of `qsufsort`: byte-bucket counts, prefix sums, the
initial index array `I` (with the sentinel at slot 0 and singleton buckets
marked `-1`) and the initial group-number array `V`. -/
def qsufInit (obuf : List ℕ) : List ℤ × List ℤ :=
  let n : ℤ := obuf.length
  let buckets1 := obuf.foldl (fun B c => B.set c (B.getD c 0 + 1))
    (List.replicate 256 (0 : ℤ))
  let buckets2 := (List.range 255).foldl
    (fun B t => B.set (t + 1) (B.getD (t + 1) 0 + B.getD t 0)) buckets1
  let buckets3 := (0 : ℤ) :: buckets2.take 255
  let step4 := obuf.enum.foldl
    (fun (p : List ℤ × List ℤ) ic =>
      let B1 := p.1.set ic.2 (p.1.getD ic.2 0 + 1)
      (B1, zset p.2 (B1.getD ic.2 0) (ic.1 : ℤ)))
    (buckets3, List.replicate (obuf.length + 1) (0 : ℤ))
  let B4 := step4.1
  let I2 := zset step4.2 0 n
  let V1 := obuf.enum.foldl (fun V ic => zset V (ic.1 : ℤ) (B4.getD ic.2 0))
    (List.replicate (obuf.length + 1) (0 : ℤ))
  let V2 := zset V1 n 0
  let I3 := (List.range 255).foldl
    (fun I t =>
      if B4.getD (t + 1) 0 = B4.getD t 0 + 1 then zset I (B4.getD (t + 1) 0) (-1)
      else I) I2
  (zset I3 0 (-1), V2)

/-- One sequential sweep of `I` (a doubling pass of order `h`): skips and
merges negative runs, and `split`s each unsorted group in place
(`split(I, V, V, i, n, h)`, so group-number reads see earlier writes of the
same pass).  Returns `(I, V, i, nacc)` at loop exit. -/
def sweepSeq (F : ℕ) (n h : ℤ) :
    ℕ → List ℤ → List ℤ → ℤ → ℤ → Option (List ℤ × List ℤ × ℤ × ℤ)
  | 0, _, _, _, _ => none
  | fuel + 1, I, V, i, nacc =>
    if i < n + 1 then
      if zget I i < 0 then
        sweepSeq F n h fuel I V (i - zget I i) (nacc - zget I i)
      else
        let I1 := if nacc ≠ 0 then zset I (i - nacc) (-nacc) else I
        let g := zget V (zget I1 i) + 1 - i
        match split true V F I1 V i g h with
        | none => none
        | some (I2, V2) => sweepSeq F n h fuel I2 V2 (i + g) 0
    else some (I, V, i, nacc)

/-- The sequential doubling loop: passes of order `h = 1, 2, 4, …` until
`I[0] = -(n+1)`, each pass sweeping `I` and writing the trailing combined
run mark. -/
def doublingSeq (F : ℕ) (n : ℤ) :
    ℕ → List ℤ → List ℤ → ℤ → Option (List ℤ × List ℤ)
  | 0, _, _, _ => none
  | fuel + 1, I, V, h =>
    if zget I 0 = -(n + 1) then some (I, V)
    else
      match sweepSeq F n h F I V 0 0 with
      | none => none
      | some (I1, V1, iEnd, nacc) =>
        let I2 := if nacc ≠ 0 then zset I1 (iEnd - nacc) (-nacc) else I1
        doublingSeq F n fuel I2 V1 (h + h)

/-- One parallel-mode sweep: group-number reads go to the frozen `V`, writes
to `V2`, and combined-run marks are deferred to the `marks` log.  The worker
pool only changes scheduling, not the computed arrays (all dispatched ranges
are disjoint), so the pass is modelled by running each dispatched `split` at
its dispatch point. -/
def sweepPar (F : ℕ) (n h : ℤ) :
    ℕ → List ℤ → List ℤ → List ℤ → List (ℤ × ℤ) → ℤ → ℤ →
      Option (List ℤ × List ℤ × List (ℤ × ℤ) × ℤ × ℤ)
  | 0, _, _, _, _, _, _ => none
  | fuel + 1, I, V, V2, marks, i, nacc =>
    if i < n + 1 then
      if zget I i < 0 then
        sweepPar F n h fuel I V V2 marks (i - zget I i) (nacc - zget I i)
      else
        let marks1 := if nacc ≠ 0 then marks ++ [(i - nacc, -nacc)] else marks
        let g := zget V (zget I i) + 1 - i
        match split false V F I V2 i g h with
        | none => none
        | some (I2, V22) => sweepPar F n h fuel I2 V V22 marks1 (i + g) 0
    else some (I, V2, marks, i, nacc)

/-- The parallel-mode doubling loop: after each pass the deferred marks are
applied, the trailing run mark written, and `V ← V2` (the end-of-pass copy). -/
def doublingPar (F : ℕ) (n : ℤ) :
    ℕ → List ℤ → List ℤ → List ℤ → ℤ → Option (List ℤ × List ℤ)
  | 0, _, _, _, _ => none
  | fuel + 1, I, V, V2, h =>
    if zget I 0 = -(n + 1) then some (I, V)
    else
      match sweepPar F n h F I V V2 [] 0 0 with
      | none => none
      | some (I1, V21, marks, iEnd, nacc) =>
        let I2 := marks.foldl (fun I m => zset I m.1 m.2) I1
        let I3 := if nacc ≠ 0 then zset I2 (iEnd - nacc) (-nacc) else I2
        doublingPar F n fuel I3 V21 V21 (h + h)

/-- The final inversion: `I[V[i]] = i` for every `i ∈ [0, n]`. -/
def finishI (n : ℤ) (I V : List ℤ) : List ℤ :=
  (List.range (n.toNat + 1)).foldl (fun I i => zset I (zget V (i : ℤ)) (i : ℤ)) I

/-- `qsufsort` from `bsdiff/math.go`.  `concurrency = 0` is the sequential
mode; any non-zero `concurrency` enables the parallel mode (the worker count
only affects scheduling, which the deterministic model abstracts away).
`fuel` bounds every loop of the model; `none` means it ran out. -/
def qsufsort (fuel : ℕ) (concurrency : ℕ) (obuf : List ℕ) : Option (List ℤ) :=
  let n : ℤ := obuf.length
  let p := qsufInit obuf
  if concurrency = 0 then
    match doublingSeq fuel n fuel p.1 p.2 1 with
    | none => none
    | some (I, V) => some (finishI n I V)
  else
    match doublingPar fuel n fuel p.1 p.2 p.2 1 with
    | none => none
    | some (I, V) => some (finishI n I V)

/-! ### Basic laws of the array model -/

theorem zset_length (l : List ℤ) (i v : ℤ) : (zset l i v).length = l.length := by
  unfold zset; split <;> simp

theorem zget_zset_self (l : List ℤ) (i v : ℤ) (h0 : 0 ≤ i)
    (hl : i.toNat < l.length) : zget (zset l i v) i = v := by
  unfold zget zset
  simp [h0, List.getD_eq_getElem?_getD, List.getElem?_set_self (by simpa using hl)]

theorem zget_zset_ne (l : List ℤ) (i v j : ℤ) (h : j ≠ i) :
    zget (zset l i v) j = zget l j := by
  unfold zget zset
  by_cases h0 : 0 ≤ i
  · by_cases hj : 0 ≤ j
    · have : j.toNat ≠ i.toNat := by omega
      simp [h0, hj, List.getD_eq_getElem?_getD, List.getElem?_set_ne (Ne.symm this)]
    · simp [h0, hj]
  · simp [h0]

theorem zget_out_hi (l : List ℤ) (i : ℤ) (h : (l.length : ℤ) ≤ i) : zget l i = 0 := by
  unfold zget
  split
  · apply List.getD_eq_default
    omega
  · rfl

theorem zget_out_lo (l : List ℤ) (i : ℤ) (h : i < 0) : zget l i = 0 := by
  unfold zget
  rw [if_neg (by omega)]

theorem swap2_length (l : List ℤ) (a b : ℤ) : (swap2 l a b).length = l.length := by
  unfold swap2; rw [zset_length, zset_length]

theorem zget_swap2_fst (l : List ℤ) (a b : ℤ) (ha : 0 ≤ a) (hal : a.toNat < l.length)
    (hb : 0 ≤ b) (hbl : b.toNat < l.length) (hne : a ≠ b) :
    zget (swap2 l a b) a = zget l b := by
  unfold swap2
  rw [zget_zset_ne _ _ _ _ hne, zget_zset_self _ _ _ ha hal]

theorem zget_swap2_snd (l : List ℤ) (a b : ℤ) (hb : 0 ≤ b) (hbl : b.toNat < l.length) :
    zget (swap2 l a b) b = zget l a := by
  unfold swap2
  rw [zget_zset_self _ _ _ hb (by rwa [zset_length])]

theorem zget_swap2_other (l : List ℤ) (a b s : ℤ) (hsa : s ≠ a) (hsb : s ≠ b) :
    zget (swap2 l a b) s = zget l s := by
  unfold swap2
  rw [zget_zset_ne _ _ _ _ hsb, zget_zset_ne _ _ _ _ hsa]

theorem zget_swap2_same (l : List ℤ) (a : ℤ) (ha : 0 ≤ a) (hal : a.toNat < l.length) :
    zget (swap2 l a a) a = zget l a := by
  rw [zget_swap2_snd _ _ _ ha hal]

/-! ### The group structure maintained by the suffix sorter

`fiber V M g` is the set of positions of `M` whose current group number is
`g`.  `tiled V I a b M` says the slot interval `[a, b)` is tiled by
consecutive groups of the positions `M`: the first group occupies `[a, g]`
for its group number `g`, holds exactly the fiber of `g` (of matching size),
and its slots in `I` either enumerate that fiber or — for a sorted singleton
— hold a negative mark; the remaining interval is tiled by the remaining
positions. -/

def fiber (V : List ℤ) (M : Finset ℤ) (g : ℤ) : Finset ℤ :=
  M.filter (fun p => zget V p = g)

/-- Width-indexed form of the tiling predicate (structural in the width). -/
def tiledW (V I : List ℤ) : ℕ → ℤ → Finset ℤ → Prop
  | 0, _, M => M = ∅
  | w + 1, a, M => ∃ k : ℕ, k ≤ w ∧
      (fiber V M (a + k)).card = k + 1 ∧
      ((∀ s, a ≤ s → s ≤ a + k → zget I s ∈ fiber V M (a + k)) ∧
        (∀ p ∈ fiber V M (a + k), ∃ s, a ≤ s ∧ s ≤ a + k ∧ zget I s = p) ∨
        k = 0 ∧ zget I a < 0) ∧
      tiledW V I (w - k) (a + k + 1) (M \ fiber V M (a + k))

def tiled (V I : List ℤ) (a b : ℤ) (M : Finset ℤ) : Prop :=
  tiledW V I (b - a).toNat a M

theorem tiled_of_empty (V I : List ℤ) (a b : ℤ) (h : b ≤ a) :
    tiled V I a b ∅ := by
  unfold tiled
  rw [show (b - a).toNat = 0 by omega]
  simp only [tiledW]

theorem tiled_stop (V I : List ℤ) (a b : ℤ) (M : Finset ℤ)
    (ht : tiled V I a b M) (h : b ≤ a) : M = ∅ := by
  unfold tiled at ht
  rw [show (b - a).toNat = 0 by omega] at ht
  simpa only [tiledW] using ht

theorem tiled_elim (V I : List ℤ) (a b : ℤ) (M : Finset ℤ)
    (ht : tiled V I a b M) (h : a < b) :
    ∃ g, a ≤ g ∧ g < b ∧
      (fiber V M g).card = (g - a + 1).toNat ∧
      ((∀ s, a ≤ s → s ≤ g → zget I s ∈ fiber V M g) ∧
        (∀ p ∈ fiber V M g, ∃ s, a ≤ s ∧ s ≤ g ∧ zget I s = p) ∨
        g = a ∧ zget I a < 0) ∧
      tiled V I (g + 1) b (M \ fiber V M g) := by
  unfold tiled at ht
  obtain ⟨w, hw⟩ : ∃ w, (b - a).toNat = w + 1 := ⟨(b - a).toNat - 1, by omega⟩
  rw [hw] at ht
  simp only [tiledW] at ht
  obtain ⟨k, hk, hcard, hlist, htail⟩ := ht
  refine ⟨a + k, by omega, by omega, ?_, ?_, ?_⟩
  · rw [show (a + (k : ℤ) - a + 1).toNat = k + 1 by omega]
    exact hcard
  · rcases hlist with hl | ⟨hk0, hneg⟩
    · exact Or.inl hl
    · exact Or.inr ⟨by omega, hneg⟩
  · unfold tiled
    rw [show (b - (a + (k : ℤ) + 1)).toNat = w - k by omega]
    exact htail

theorem tiled_intro (V I : List ℤ) (a b : ℤ) (M : Finset ℤ) (g : ℤ)
    (h : a < b) (hg1 : a ≤ g) (hg2 : g < b)
    (hcard : (fiber V M g).card = (g - a + 1).toNat)
    (hlist : (∀ s, a ≤ s → s ≤ g → zget I s ∈ fiber V M g) ∧
      (∀ p ∈ fiber V M g, ∃ s, a ≤ s ∧ s ≤ g ∧ zget I s = p) ∨
      g = a ∧ zget I a < 0)
    (htail : tiled V I (g + 1) b (M \ fiber V M g)) :
    tiled V I a b M := by
  unfold tiled
  obtain ⟨w, hw⟩ : ∃ w, (b - a).toNat = w + 1 := ⟨(b - a).toNat - 1, by omega⟩
  rw [hw]
  simp only [tiledW]
  refine ⟨(g - a).toNat, by omega, ?_, ?_, ?_⟩
  · rw [show a + ((g - a).toNat : ℤ) = g by omega]
    rw [show (g - a + 1).toNat = (g - a).toNat + 1 by omega] at hcard
    exact hcard
  · rw [show a + ((g - a).toNat : ℤ) = g by omega]
    rcases hlist with hl | ⟨hga, hneg⟩
    · exact Or.inl hl
    · exact Or.inr ⟨by omega, hneg⟩
  · rw [show a + ((g - a).toNat : ℤ) = g by omega]
    unfold tiled at htail
    rw [show (b - (g + 1)).toNat = w - (g - a).toNat by omega] at htail
    exact htail

/-- All positions of a tiled interval carry group numbers within it. -/
theorem tiled_val_range (V I : List ℤ) :
    ∀ m : ℕ, ∀ a b : ℤ, ∀ M : Finset ℤ, (b - a).toNat = m →
      tiled V I a b M → ∀ p ∈ M, a ≤ zget V p ∧ zget V p < b := by
  intro m
  induction m using Nat.strong_induction_on with
  | _ m ih =>
    intro a b M hm ht p hp
    rcases le_or_lt b a with hba | hab
    · rw [tiled_stop V I a b M ht hba] at hp
      simp at hp
    · obtain ⟨g, hg1, hg2, _, _, htail⟩ := tiled_elim V I a b M ht hab
      by_cases hfib : p ∈ fiber V M g
      · have := (Finset.mem_filter.1 hfib).2
        simp only [decide_eq_true_eq] at this
        omega
      · have hp2 : p ∈ M \ fiber V M g := Finset.mem_sdiff.2 ⟨hp, hfib⟩
        have := ih (b - (g + 1)).toNat (by omega) (g + 1) b _ rfl htail p hp2
        omega

/-- The number of positions of a tiled interval equals its width. -/
theorem tiled_card (V I : List ℤ) :
    ∀ m : ℕ, ∀ a b : ℤ, ∀ M : Finset ℤ, (b - a).toNat = m →
      tiled V I a b M → M.card = (b - a).toNat := by
  intro m
  induction m using Nat.strong_induction_on with
  | _ m ih =>
    intro a b M hm ht
    rcases le_or_lt b a with hba | hab
    · rw [tiled_stop V I a b M ht hba]
      simp; omega
    · obtain ⟨g, hg1, hg2, hcard, _, htail⟩ := tiled_elim V I a b M ht hab
      have h1 : (M \ fiber V M g).card = (b - (g + 1)).toNat :=
        ih (b - (g + 1)).toNat (by omega) (g + 1) b _ rfl htail
      have h2 : (M \ fiber V M g).card = M.card - (fiber V M g).card :=
        Finset.card_sdiff (Finset.filter_subset _ _)
      have h3 : (fiber V M g).card ≤ M.card :=
        Finset.card_le_card (Finset.filter_subset _ _)
      omega

/-- `tiled` only looks at `I` on the interval and at `V` on the positions. -/
theorem tiled_frame (V I V2 I2 : List ℤ) :
    ∀ m : ℕ, ∀ a b : ℤ, ∀ M : Finset ℤ, (b - a).toNat = m →
      tiled V I a b M →
      (∀ s, a ≤ s → s < b → zget I2 s = zget I s) →
      (∀ p ∈ M, zget V2 p = zget V p) →
      tiled V2 I2 a b M := by
  intro m
  induction m using Nat.strong_induction_on with
  | _ m ih =>
    intro a b M hm ht hI hV
    rcases le_or_lt b a with hba | hab
    · rw [tiled_stop V I a b M ht hba]
      exact tiled_of_empty _ _ _ _ hba
    · obtain ⟨g, hg1, hg2, hcard, hlist, htail⟩ := tiled_elim V I a b M ht hab
      have hfib : fiber V2 M g = fiber V M g := by
        apply Finset.filter_congr
        intro p hp
        simp [hV p hp]
      apply tiled_intro V2 I2 a b M g hab hg1 hg2
      · rw [hfib]; exact hcard
      · rcases hlist with ⟨hl1, hl2⟩ | ⟨hge, hneg⟩
        · left
          constructor
          · intro s hs1 hs2
            rw [hfib, hI s hs1 (by omega)]
            exact hl1 s hs1 hs2
          · intro p hp
            obtain ⟨s, hs1, hs2, hs3⟩ := hl2 p (hfib ▸ hp)
            exact ⟨s, hs1, hs2, by rw [hI s hs1 (by omega)]; exact hs3⟩
        · right
          exact ⟨hge, by rw [hI a le_rfl hab]; exact hneg⟩
      · rw [hfib]
        apply ih (b - (g + 1)).toNat (by omega) (g + 1) b _ rfl htail
        · intro s hs1 hs2; exact hI s (by omega) hs2
        · intro p hp; exact hV p (Finset.mem_sdiff.1 hp).1

/-- Tilings of adjacent intervals over disjoint position sets concatenate. -/
theorem tiled_append (V I : List ℤ) :
    ∀ m : ℕ, ∀ a mid b : ℤ, ∀ M1 M2 : Finset ℤ, (mid - a).toNat = m →
      a ≤ mid → mid ≤ b →
      tiled V I a mid M1 → tiled V I mid b M2 → Disjoint M1 M2 →
      tiled V I a b (M1 ∪ M2) := by
  intro m
  induction m using Nat.strong_induction_on with
  | _ m ih =>
    intro a mid b M1 M2 hm ham hmb ht1 ht2 hdis
    rcases le_or_lt mid a with hba | hab
    · have : a = mid := le_antisymm ham hba
      rw [tiled_stop V I a mid M1 ht1 hba]
      simpa [this] using ht2
    · obtain ⟨g, hg1, hg2, hcard, hlist, htail⟩ := tiled_elim V I a mid M1 ht1 hab
      have hv2 : ∀ p ∈ M2, mid ≤ zget V p ∧ zget V p < b :=
        tiled_val_range V I (b - mid).toNat mid b M2 rfl ht2
      have hfib : fiber V (M1 ∪ M2) g = fiber V M1 g := by
        unfold fiber
        rw [Finset.filter_union]
        have : M2.filter (fun p => zget V p = g) = ∅ := by
          apply Finset.filter_eq_empty_iff.2
          intro p hp
          have := hv2 p hp
          omega
        rw [this, Finset.union_empty]
      apply tiled_intro V I a b (M1 ∪ M2) g (by omega) hg1 (by omega)
      · rw [hfib]; exact hcard
      · rw [hfib]; exact hlist
      · have hsd : (M1 ∪ M2) \ fiber V (M1 ∪ M2) g = (M1 \ fiber V M1 g) ∪ M2 := by
          rw [hfib]
          rw [Finset.union_sdiff_distrib]
          congr 1
          apply Finset.sdiff_eq_self_of_disjoint
          apply Finset.disjoint_left.2
          intro p hp hpf
          exact (Finset.disjoint_left.1 hdis) (Finset.filter_subset _ _ hpf) hp
        rw [hsd]
        apply ih (mid - (g + 1)).toNat (by omega) (g + 1) mid b _ _ rfl (by omega) hmb htail ht2
        exact Finset.disjoint_of_subset_left (Finset.sdiff_subset) hdis

/-- A single group tiles its own interval. -/
theorem tiled_single_group (V I : List ℤ) (a b g : ℤ) (M : Finset ℤ)
    (hg : g = b - 1) (hab : a < b)
    (hval : ∀ p ∈ M, zget V p = g)
    (hcard : M.card = (b - a).toNat)
    (hlist : (∀ s, a ≤ s → s ≤ g → zget I s ∈ M) ∧
      (∀ p ∈ M, ∃ s, a ≤ s ∧ s ≤ g ∧ zget I s = p) ∨
      g = a ∧ zget I a < 0) :
    tiled V I a b M := by
  have hfib : fiber V M g = M := by
    unfold fiber
    apply Finset.filter_eq_self.2
    intro p hp
    simp [hval p hp]
  apply tiled_intro V I a b M g hab (by omega) (by omega)
  · rw [hfib, hcard]; omega
  · rw [hfib]; exact hlist
  · rw [hfib, Finset.sdiff_self]
    exact tiled_of_empty _ _ _ _ (by omega)

/-! ### Counting slots by a property of their values -/

/-- Number of slots of `U` whose `I`-value satisfies `f`. -/
def cntB (f : ℤ → Bool) (I : List ℤ) (U : Finset ℤ) : ℕ :=
  (U.filter (fun s => f (zget I s))).card

theorem Ico_peel (a b : ℤ) (h : a < b) :
    Finset.Ico a b = insert a (Finset.Ico (a + 1) b) := by
  ext s
  simp only [Finset.mem_Ico, Finset.mem_insert]
  omega

theorem cntB_congr (f : ℤ → Bool) (I J : List ℤ) (U : Finset ℤ)
    (h : ∀ s ∈ U, zget J s = zget I s) : cntB f J U = cntB f I U := by
  unfold cntB
  apply Finset.card_bij (fun s _ => s)
  · intro s hs
    have h1 := Finset.mem_filter.1 hs
    exact Finset.mem_filter.2 ⟨h1.1, by rw [← h s h1.1]; exact h1.2⟩
  · intro s _ t _ hst; exact hst
  · intro s hs
    have h1 := Finset.mem_filter.1 hs
    exact ⟨s, Finset.mem_filter.2 ⟨h1.1, by rw [h s h1.1]; exact h1.2⟩, rfl⟩

theorem cntB_peel (f : ℤ → Bool) (I : List ℤ) (a b : ℤ) (h : a < b) :
    cntB f I (Finset.Ico a b) =
      (if f (zget I a) then 1 else 0) + cntB f I (Finset.Ico (a + 1) b) := by
  unfold cntB
  rw [Ico_peel a b h, Finset.filter_insert]
  have hna : a ∉ Finset.Ico (a + 1) b := by simp
  split
  · rw [Finset.card_insert_of_not_mem (fun hc => hna (Finset.mem_filter.1 hc).1)]
    omega
  · omega

theorem cntB_union (f : ℤ → Bool) (I : List ℤ) (U1 U2 : Finset ℤ)
    (h : Disjoint U1 U2) :
    cntB f I (U1 ∪ U2) = cntB f I U1 + cntB f I U2 := by
  unfold cntB
  rw [Finset.filter_union]
  exact Finset.card_union_of_disjoint
    (Finset.disjoint_filter_filter h)

theorem cntB_empty (f : ℤ → Bool) (I : List ℤ) : cntB f I ∅ = 0 := by
  simp [cntB]

theorem cntB_le_card (f : ℤ → Bool) (I : List ℤ) (U : Finset ℤ) :
    cntB f I U ≤ U.card :=
  Finset.card_le_card (Finset.filter_subset _ _)

theorem cntB_pos (f : ℤ → Bool) (I : List ℤ) (U : Finset ℤ) (s : ℤ)
    (hs : s ∈ U) (hf : f (zget I s)) : 1 ≤ cntB f I U := by
  unfold cntB
  exact Finset.card_pos.2 ⟨s, Finset.mem_filter.2 ⟨hs, hf⟩⟩

theorem cntB_erase (f : ℤ → Bool) (I : List ℤ) (U : Finset ℤ) (s : ℤ)
    (hs : s ∈ U) :
    cntB f I U = cntB f I (U.erase s) + (if f (zget I s) then 1 else 0) := by
  unfold cntB
  rw [Finset.filter_erase]
  by_cases hf : f (zget I s)
  · rw [if_pos hf]
    have hmem : s ∈ U.filter (fun t => f (zget I t)) := Finset.mem_filter.2 ⟨hs, hf⟩
    rw [Finset.card_erase_of_mem hmem]
    have := Finset.card_pos.2 ⟨s, hmem⟩
    omega
  · rw [if_neg hf]
    have hnotmem : s ∉ U.filter (fun t => f (zget I t) = true) :=
      fun hc => hf (Finset.mem_filter.1 hc).2
    rw [Finset.erase_eq_of_not_mem hnotmem]
    simp

/-- Trichotomy of keys: every slot counts in exactly one of the `<`, `=`, `>`
buckets of the pivot `x`. -/
theorem cntB_trichotomy (kf : ℤ → ℤ) (x : ℤ) (I : List ℤ) (U : Finset ℤ) :
    cntB (fun v => kf v < x) I U + cntB (fun v => kf v = x) I U +
      cntB (fun v => x < kf v) I U = U.card := by
  unfold cntB
  induction U using Finset.induction_on with
  | empty => simp
  | @insert s T hnm ih =>
    rw [Finset.filter_insert, Finset.filter_insert, Finset.filter_insert]
    by_cases h1 : kf (zget I s) < x
    · rw [if_pos (by simpa using h1), if_neg (by simp; omega), if_neg (by simp; omega)]
      rw [Finset.card_insert_of_not_mem (fun hc => hnm (Finset.mem_filter.1 hc).1)]
      rw [Finset.card_insert_of_not_mem hnm]
      omega
    · by_cases h2 : kf (zget I s) = x
      · rw [if_neg (by simpa using h1), if_pos (by simpa using h2), if_neg (by simp; omega)]
        rw [Finset.card_insert_of_not_mem (fun hc => hnm (Finset.mem_filter.1 hc).1)]
        rw [Finset.card_insert_of_not_mem hnm]
        omega
      · rw [if_neg (by simpa using h1), if_neg (by simpa using h2), if_pos (by simp; omega)]
        rw [Finset.card_insert_of_not_mem (fun hc => hnm (Finset.mem_filter.1 hc).1)]
        rw [Finset.card_insert_of_not_mem hnm]
        omega

/-! ### Listing: a slot interval enumerating a set of positions -/

/-- The slots `[lo, hi)` of `I` hold exactly the positions `M` (each once). -/
def listing (I : List ℤ) (lo hi : ℤ) (M : Finset ℤ) : Prop :=
  (∀ s, lo ≤ s → s < hi → zget I s ∈ M) ∧
  (∀ p ∈ M, ∃ s, lo ≤ s ∧ s < hi ∧ zget I s = p) ∧
  M.card = (hi - lo).toNat

theorem listing_frame (I J : List ℤ) (lo hi : ℤ) (M : Finset ℤ)
    (hl : listing I lo hi M) (h : ∀ s, lo ≤ s → s < hi → zget J s = zget I s) :
    listing J lo hi M := by
  obtain ⟨h1, h2, h3⟩ := hl
  refine ⟨?_, ?_, h3⟩
  · intro s hs1 hs2; rw [h s hs1 hs2]; exact h1 s hs1 hs2
  · intro p hp
    obtain ⟨s, hs1, hs2, hs3⟩ := h2 p hp
    exact ⟨s, hs1, hs2, by rw [h s hs1 hs2]; exact hs3⟩

theorem listing_swap (I : List ℤ) (lo hi : ℤ) (M : Finset ℤ) (a b : ℤ)
    (hl : listing I lo hi M)
    (ha1 : lo ≤ a) (ha2 : a < hi) (hb1 : lo ≤ b) (hb2 : b < hi)
    (ha0 : 0 ≤ a) (haL : a.toNat < I.length) (hb0 : 0 ≤ b) (hbL : b.toNat < I.length) :
    listing (swap2 I a b) lo hi M := by
  obtain ⟨h1, h2, h3⟩ := hl
  by_cases hab : a = b
  · subst hab
    refine ⟨?_, ?_, h3⟩
    · intro s hs1 hs2
      by_cases hsa : s = a
      · subst hsa; rw [zget_swap2_same I s ha0 haL]; exact h1 s ha1 ha2
      · rw [zget_swap2_other I a a s hsa hsa]; exact h1 s hs1 hs2
    · intro p hp
      obtain ⟨s, hs1, hs2, hs3⟩ := h2 p hp
      by_cases hsa : s = a
      · subst hsa
        exact ⟨s, ha1, ha2, by rw [zget_swap2_same I s ha0 haL]; exact hs3⟩
      · exact ⟨s, hs1, hs2, by rw [zget_swap2_other I a a s hsa hsa]; exact hs3⟩
  · refine ⟨?_, ?_, h3⟩
    · intro s hs1 hs2
      by_cases hsb : s = b
      · rw [hsb, zget_swap2_snd I a b hb0 hbL]; exact h1 a ha1 ha2
      · by_cases hsa : s = a
        · rw [hsa, zget_swap2_fst I a b ha0 haL hb0 hbL hab]; exact h1 b hb1 hb2
        · rw [zget_swap2_other I a b s hsa hsb]; exact h1 s hs1 hs2
    · intro p hp
      obtain ⟨s, hs1, hs2, hs3⟩ := h2 p hp
      by_cases hsa : s = a
      · refine ⟨b, hb1, hb2, ?_⟩
        rw [zget_swap2_snd I a b hb0 hbL]
        rw [hsa] at hs3
        exact hs3
      · by_cases hsb : s = b
        · refine ⟨a, ha1, ha2, ?_⟩
          rw [zget_swap2_fst I a b ha0 haL hb0 hbL hab]
          rw [hsb] at hs3
          exact hs3
        · exact ⟨s, hs1, hs2, by rw [zget_swap2_other I a b s hsa hsb]; exact hs3⟩

/-- In a listing, distinct slots hold distinct positions. -/
theorem listing_inj (I : List ℤ) (lo hi : ℤ) (M : Finset ℤ)
    (hl : listing I lo hi M) :
    ∀ s t, lo ≤ s → s < hi → lo ≤ t → t < hi → zget I s = zget I t → s = t := by
  obtain ⟨h1, h2, h3⟩ := hl
  have hmaps : ∀ s ∈ Finset.Ico lo hi, zget I s ∈ M := by
    intro s hs
    have := Finset.mem_Ico.1 hs
    exact h1 s this.1 this.2
  have hsurj : ∀ p ∈ M, ∃ s ∈ Finset.Ico lo hi, zget I s = p := by
    intro p hp
    obtain ⟨s, hs1, hs2, hs3⟩ := h2 p hp
    exact ⟨s, Finset.mem_Ico.2 ⟨hs1, hs2⟩, hs3⟩
  have hcard : M.card ≤ (Finset.Ico lo hi).card := by
    rw [h3, Int.card_Ico]
  intro s t hs1 hs2 ht1 ht2 hst
  exact Finset.inj_on_of_surj_on_of_card_le (s := Finset.Ico lo hi) (t := M)
    (fun u _ => zget I u) (fun u hu => hmaps u hu)
    (fun p hp => by
      obtain ⟨u, hu, hup⟩ := hsurj p hp
      exact ⟨u, hu, hup⟩)
    (by rw [Int.card_Ico]; omega)
    (Finset.mem_Ico.2 ⟨hs1, hs2⟩) (Finset.mem_Ico.2 ⟨ht1, ht2⟩) hst

/-- The value-based key function of `split`: `keyAt` only depends on the
value stored in the slot. -/
def kfOf (sameV : Bool) (V V2 : List ℤ) (h : ℤ) : ℤ → ℤ :=
  fun v => zget (if sameV then V2 else V) (v + h)

theorem keyAt_kf (sameV : Bool) (V V2 I : List ℤ) (idx h : ℤ) :
    keyAt sameV V V2 I idx h = kfOf sameV V V2 h (zget I idx) := rfl

/-- Partial correctness of the first partition walk: it permutes the slots of
`[lo, hi)` (preserving the listing), touches nothing outside, keeps the
cursors in their regions, and maintains the key counts of the unprocessed
slots. -/
theorem part1_spec (sameV : Bool) (V V2 : List ℤ) (x h jj kk lo hi : ℤ)
    (M : Finset ℤ) :
    ∀ fuel : ℕ, ∀ I : List ℤ, ∀ i j k : ℤ, ∀ out : List ℤ × ℤ × ℤ,
      part1 sameV V V2 x h jj kk fuel I i j k = some out →
      0 ≤ lo → lo ≤ i → i ≤ jj → jj ≤ kk → kk ≤ hi → hi ≤ (I.length : ℤ) →
      0 ≤ j → 0 ≤ k → jj + j ≤ kk → kk + k ≤ hi →
      listing I lo hi M →
      cntB (fun v => decide (kfOf sameV V V2 h v < x)) I (Finset.Ico i jj) +
        cntB (fun v => decide (kfOf sameV V V2 h v < x)) I (Finset.Ico (jj + j) kk) +
        cntB (fun v => decide (kfOf sameV V V2 h v < x)) I (Finset.Ico (kk + k) hi) =
        (jj - i).toNat →
      cntB (fun v => decide (kfOf sameV V V2 h v = x)) I (Finset.Ico i jj) +
        cntB (fun v => decide (kfOf sameV V V2 h v = x)) I (Finset.Ico (jj + j) kk) +
        cntB (fun v => decide (kfOf sameV V V2 h v = x)) I (Finset.Ico (kk + k) hi) =
        (kk - (jj + j)).toNat →
      cntB (fun v => decide (x < kfOf sameV V V2 h v)) I (Finset.Ico i jj) +
        cntB (fun v => decide (x < kfOf sameV V V2 h v)) I (Finset.Ico (jj + j) kk) +
        cntB (fun v => decide (x < kfOf sameV V V2 h v)) I (Finset.Ico (kk + k) hi) =
        (hi - (kk + k)).toNat →
      listing out.1 lo hi M ∧
      (∀ s : ℤ, s < lo ∨ hi ≤ s → zget out.1 s = zget I s) ∧
      out.1.length = I.length ∧
      0 ≤ out.2.1 ∧ 0 ≤ out.2.2 ∧ jj + out.2.1 ≤ kk ∧ kk + out.2.2 ≤ hi ∧
      cntB (fun v => decide (kfOf sameV V V2 h v < x)) out.1
          (Finset.Ico (jj + out.2.1) kk) +
        cntB (fun v => decide (kfOf sameV V V2 h v < x)) out.1
          (Finset.Ico (kk + out.2.2) hi) = 0 ∧
      cntB (fun v => decide (kfOf sameV V V2 h v = x)) out.1
          (Finset.Ico (jj + out.2.1) kk) +
        cntB (fun v => decide (kfOf sameV V V2 h v = x)) out.1
          (Finset.Ico (kk + out.2.2) hi) = (kk - (jj + out.2.1)).toNat ∧
      cntB (fun v => decide (x < kfOf sameV V V2 h v)) out.1
          (Finset.Ico (jj + out.2.1) kk) +
        cntB (fun v => decide (x < kfOf sameV V V2 h v)) out.1
          (Finset.Ico (kk + out.2.2) hi) = (hi - (kk + out.2.2)).toNat := by
  intro fuel
  induction fuel with
  | zero =>
    intro I i j k out hsome
    simp [part1] at hsome
  | succ fuel ih =>
    intro I i j k out hsome h0lo hloi hijj hjjkk hkkhi hlen hj0 hk0 hjb hkb
      hlist hcL hcE hcG
    rw [part1] at hsome
    by_cases hguard : i < jj
    · rw [if_pos hguard] at hsome
      rw [keyAt_kf] at hsome
      set kf := kfOf sameV V V2 h with hkf
      by_cases hlt : kf (zget I i) < x
      · -- `<` branch: advance i
        rw [if_pos hlt] at hsome
        have hpeelL := cntB_peel (fun v => decide (kf v < x)) I i jj hguard
        have hpeelE := cntB_peel (fun v => decide (kf v = x)) I i jj hguard
        have hpeelG := cntB_peel (fun v => decide (x < kf v)) I i jj hguard
        rw [if_pos (by simpa using hlt)] at hpeelL
        rw [if_neg (by simp; omega)] at hpeelE
        rw [if_neg (by simp; omega)] at hpeelG
        exact ih I (i + 1) j k out hsome h0lo (by omega) (by omega) hjjkk hkkhi
          hlen hj0 hk0 hjb hkb hlist (by omega) (by omega) (by omega)
      · rw [if_neg hlt] at hsome
        by_cases heq : kf (zget I i) = x
        · -- `=` branch: swap with the `=` region and advance j
          rw [if_pos heq] at hsome
          -- the current slot holds an `=` element, so one `=` slot remains
          have hEpos : 1 ≤ cntB (fun v => decide (kf v = x)) I (Finset.Ico i jj) :=
            cntB_pos _ I _ i (Finset.mem_Ico.2 ⟨le_refl i, hguard⟩) (by simpa using heq)
          have hjlt : jj + j < kk := by omega
          set t := jj + j with ht
          have hI2 : ∀ f : ℤ → Bool,
              cntB f (swap2 I i t) (Finset.Ico i jj) +
                cntB f (swap2 I i t) (Finset.Ico (t + 1) kk) +
                cntB f (swap2 I i t) (Finset.Ico (kk + k) hi) +
                (if f (zget I i) then 1 else 0) =
              cntB f I (Finset.Ico i jj) + cntB f I (Finset.Ico t kk) +
                cntB f I (Finset.Ico (kk + k) hi) := by
            intro f
            have hit : i ≠ t := by omega
            have hiA : i ∈ Finset.Ico i jj := Finset.mem_Ico.2 ⟨le_refl i, hguard⟩
            have e1 : cntB f (swap2 I i t) (Finset.Ico i jj) =
                cntB f I ((Finset.Ico i jj).erase i) + (if f (zget I t) then 1 else 0) := by
              rw [cntB_erase f (swap2 I i t) (Finset.Ico i jj) i hiA]
              rw [zget_swap2_fst I i t (by omega) (by omega) (by omega) (by omega) hit]
              congr 1
              apply cntB_congr
              intro s hs
              have hs1 := Finset.mem_Ico.1 (Finset.mem_of_mem_erase hs)
              have hs2 := Finset.ne_of_mem_erase hs
              exact zget_swap2_other I i t s hs2 (by omega)
            have e2 : cntB f I (Finset.Ico i jj) =
                cntB f I ((Finset.Ico i jj).erase i) + (if f (zget I i) then 1 else 0) :=
              cntB_erase f I (Finset.Ico i jj) i hiA
            have e3 : cntB f (swap2 I i t) (Finset.Ico (t + 1) kk) =
                cntB f I (Finset.Ico (t + 1) kk) := by
              apply cntB_congr
              intro s hs
              have hs1 := Finset.mem_Ico.1 hs
              exact zget_swap2_other I i t s (by omega) (by omega)
            have e4 : cntB f I (Finset.Ico t kk) =
                (if f (zget I t) then 1 else 0) + cntB f I (Finset.Ico (t + 1) kk) :=
              cntB_peel f I t kk hjlt
            have e5 : cntB f (swap2 I i t) (Finset.Ico (kk + k) hi) =
                cntB f I (Finset.Ico (kk + k) hi) := by
              apply cntB_congr
              intro s hs
              have hs1 := Finset.mem_Ico.1 hs
              exact zget_swap2_other I i t s (by omega) (by omega)
            omega
          have hL2 := hI2 (fun v => decide (kf v < x))
          have hE2 := hI2 (fun v => decide (kf v = x))
          have hG2 := hI2 (fun v => decide (x < kf v))
          rw [if_neg (by simp; omega)] at hL2
          rw [if_pos (by simpa using heq)] at hE2
          rw [if_neg (by simp; omega)] at hG2
          have hswlen : (swap2 I i t).length = I.length := swap2_length I i t
          have hres := ih (swap2 I i t) i (j + 1) k out hsome h0lo hloi (by omega)
            hjjkk hkkhi (by omega) (by omega) hk0 (by omega) hkb
            (listing_swap I lo hi M i t hlist (by omega) (by omega) (by omega)
              (by omega) (by omega) (by omega) (by omega) (by omega))
            (by rw [show jj + (j + 1) = t + 1 by omega]; omega)
            (by rw [show jj + (j + 1) = t + 1 by omega]; omega)
            (by rw [show jj + (j + 1) = t + 1 by omega]; omega)
          obtain ⟨r1, r2, r3, r4⟩ := hres
          refine ⟨r1, ?_, by omega, r4⟩
          intro s hs
          rw [r2 s hs]
          exact zget_swap2_other I i t s (by omega) (by omega)
        · -- `>` branch: swap with the `>` region and advance k
          rw [if_neg heq] at hsome
          have hgt : x < kf (zget I i) := by omega
          have hGpos : 1 ≤ cntB (fun v => decide (x < kf v)) I (Finset.Ico i jj) :=
            cntB_pos _ I _ i (Finset.mem_Ico.2 ⟨le_refl i, hguard⟩) (by simpa using hgt)
          have hklt : kk + k < hi := by omega
          set t := kk + k with ht
          have hI2 : ∀ f : ℤ → Bool,
              cntB f (swap2 I i t) (Finset.Ico i jj) +
                cntB f (swap2 I i t) (Finset.Ico (jj + j) kk) +
                cntB f (swap2 I i t) (Finset.Ico (t + 1) hi) +
                (if f (zget I i) then 1 else 0) =
              cntB f I (Finset.Ico i jj) + cntB f I (Finset.Ico (jj + j) kk) +
                cntB f I (Finset.Ico t hi) := by
            intro f
            have hit : i ≠ t := by omega
            have hiA : i ∈ Finset.Ico i jj := Finset.mem_Ico.2 ⟨le_refl i, hguard⟩
            have e1 : cntB f (swap2 I i t) (Finset.Ico i jj) =
                cntB f I ((Finset.Ico i jj).erase i) + (if f (zget I t) then 1 else 0) := by
              rw [cntB_erase f (swap2 I i t) (Finset.Ico i jj) i hiA]
              rw [zget_swap2_fst I i t (by omega) (by omega) (by omega) (by omega) hit]
              congr 1
              apply cntB_congr
              intro s hs
              have hs1 := Finset.mem_Ico.1 (Finset.mem_of_mem_erase hs)
              have hs2 := Finset.ne_of_mem_erase hs
              exact zget_swap2_other I i t s hs2 (by omega)
            have e2 : cntB f I (Finset.Ico i jj) =
                cntB f I ((Finset.Ico i jj).erase i) + (if f (zget I i) then 1 else 0) :=
              cntB_erase f I (Finset.Ico i jj) i hiA
            have e3 : cntB f (swap2 I i t) (Finset.Ico (jj + j) kk) =
                cntB f I (Finset.Ico (jj + j) kk) := by
              apply cntB_congr
              intro s hs
              have hs1 := Finset.mem_Ico.1 hs
              exact zget_swap2_other I i t s (by omega) (by omega)
            have e4 : cntB f I (Finset.Ico t hi) =
                (if f (zget I t) then 1 else 0) + cntB f I (Finset.Ico (t + 1) hi) :=
              cntB_peel f I t hi hklt
            have e5 : cntB f (swap2 I i t) (Finset.Ico (t + 1) hi) =
                cntB f I (Finset.Ico (t + 1) hi) := by
              apply cntB_congr
              intro s hs
              have hs1 := Finset.mem_Ico.1 hs
              exact zget_swap2_other I i t s (by omega) (by omega)
            omega
          have hL2 := hI2 (fun v => decide (kf v < x))
          have hE2 := hI2 (fun v => decide (kf v = x))
          have hG2 := hI2 (fun v => decide (x < kf v))
          rw [if_neg (by simp; omega)] at hL2
          rw [if_neg (by simp; omega)] at hE2
          rw [if_pos (by simpa using hgt)] at hG2
          have hswlen : (swap2 I i t).length = I.length := swap2_length I i t
          have hres := ih (swap2 I i t) i j (k + 1) out hsome h0lo hloi (by omega)
            hjjkk hkkhi (by omega) hj0 (by omega) hjb (by omega)
            (listing_swap I lo hi M i t hlist (by omega) (by omega) (by omega)
              (by omega) (by omega) (by omega) (by omega) (by omega))
            (by rw [show kk + (k + 1) = t + 1 by omega]; omega)
            (by rw [show kk + (k + 1) = t + 1 by omega]; omega)
            (by rw [show kk + (k + 1) = t + 1 by omega]; omega)
          obtain ⟨r1, r2, r3, r4⟩ := hres
          refine ⟨r1, ?_, by omega, r4⟩
          intro s hs
          rw [r2 s hs]
          exact zget_swap2_other I i t s (by omega) (by omega)
    · rw [if_neg hguard] at hsome
      have hieq : i = jj := by omega
      have hout : out = (I, j, k) := by
        cases hsome; rfl
      subst hout
      have hA : Finset.Ico i jj = (∅ : Finset ℤ) := by
        rw [hieq, Finset.Ico_self]
      rw [hA, cntB_empty] at hcL hcE hcG
      dsimp only
      exact ⟨hlist, fun s _ => rfl, rfl, hj0, hk0, hjb, hkb, by omega, by omega, by omega⟩

/-- Partial correctness of the second partition walk (`for jj+j < kk`): it
also just permutes `[lo, hi)` and touches nothing outside. -/
theorem part2_spec (sameV : Bool) (V V2 : List ℤ) (x h jj kk lo hi : ℤ)
    (M : Finset ℤ) :
    ∀ fuel : ℕ, ∀ I : List ℤ, ∀ j k : ℤ, ∀ out : List ℤ,
      part2 sameV V V2 x h jj kk fuel I j k = some out →
      0 ≤ lo → lo ≤ jj → jj ≤ kk → kk ≤ hi → hi ≤ (I.length : ℤ) →
      0 ≤ j → 0 ≤ k → jj + j ≤ kk → kk + k ≤ hi →
      listing I lo hi M →
      cntB (fun v => decide (kfOf sameV V V2 h v < x)) I (Finset.Ico (jj + j) kk) +
        cntB (fun v => decide (kfOf sameV V V2 h v < x)) I (Finset.Ico (kk + k) hi) = 0 →
      cntB (fun v => decide (kfOf sameV V V2 h v = x)) I (Finset.Ico (jj + j) kk) +
        cntB (fun v => decide (kfOf sameV V V2 h v = x)) I (Finset.Ico (kk + k) hi) =
        (kk - (jj + j)).toNat →
      cntB (fun v => decide (x < kfOf sameV V V2 h v)) I (Finset.Ico (jj + j) kk) +
        cntB (fun v => decide (x < kfOf sameV V V2 h v)) I (Finset.Ico (kk + k) hi) =
        (hi - (kk + k)).toNat →
      listing out lo hi M ∧
      (∀ s : ℤ, s < lo ∨ hi ≤ s → zget out s = zget I s) ∧
      out.length = I.length := by
  intro fuel
  induction fuel with
  | zero =>
    intro I j k out hsome
    simp [part2] at hsome
  | succ fuel ih =>
    intro I j k out hsome h0lo hlojj hjjkk hkkhi hlen hj0 hk0 hjb hkb
      hlist hcL hcE hcG
    rw [part2] at hsome
    by_cases hguard : jj + j < kk
    · rw [if_pos hguard] at hsome
      rw [keyAt_kf] at hsome
      set kf := kfOf sameV V V2 h with hkf
      have hslot : jj + j ∈ Finset.Ico (jj + j) kk :=
        Finset.mem_Ico.2 ⟨le_refl _, hguard⟩
      have hnotlt : ¬ kf (zget I (jj + j)) < x := by
        intro hc
        have := cntB_pos (fun v => decide (kf v < x)) I (Finset.Ico (jj + j) kk)
          (jj + j) hslot (by simpa using hc)
        omega
      by_cases heq : kf (zget I (jj + j)) = x
      · -- `=` branch: the slot stays, j advances
        rw [if_pos heq] at hsome
        have hpeelL := cntB_peel (fun v => decide (kf v < x)) I (jj + j) kk hguard
        have hpeelE := cntB_peel (fun v => decide (kf v = x)) I (jj + j) kk hguard
        have hpeelG := cntB_peel (fun v => decide (x < kf v)) I (jj + j) kk hguard
        rw [if_neg (by simpa using hnotlt)] at hpeelL
        rw [if_pos (by simpa using heq)] at hpeelE
        rw [if_neg (by simp; omega)] at hpeelG
        have := ih I (j + 1) k out hsome h0lo hlojj hjjkk hkkhi hlen
          (by omega) hk0 (by omega) hkb hlist
          (by rw [show jj + (j + 1) = jj + j + 1 by omega]; omega)
          (by rw [show jj + (j + 1) = jj + j + 1 by omega]; omega)
          (by rw [show jj + (j + 1) = jj + j + 1 by omega]; omega)
        exact this
      · -- `>` branch: swap with the `>` region, k advances
        rw [if_neg heq] at hsome
        have hgt : x < kf (zget I (jj + j)) := by omega
        have hGpos : 1 ≤ cntB (fun v => decide (x < kf v)) I (Finset.Ico (jj + j) kk) :=
          cntB_pos _ I _ (jj + j) hslot (by simpa using hgt)
        have hklt : kk + k < hi := by omega
        set a := jj + j with hadef
        set t := kk + k with ht
        have hat : a ≠ t := by omega
        have hI2 : ∀ f : ℤ → Bool,
            cntB f (swap2 I a t) (Finset.Ico a kk) +
              cntB f (swap2 I a t) (Finset.Ico (t + 1) hi) +
              (if f (zget I a) then 1 else 0) =
            cntB f I (Finset.Ico a kk) + cntB f I (Finset.Ico t hi) := by
          intro f
          have haA : a ∈ Finset.Ico a kk := Finset.mem_Ico.2 ⟨le_refl a, hguard⟩
          have e1 : cntB f (swap2 I a t) (Finset.Ico a kk) =
              cntB f I ((Finset.Ico a kk).erase a) + (if f (zget I t) then 1 else 0) := by
            rw [cntB_erase f (swap2 I a t) (Finset.Ico a kk) a haA]
            rw [zget_swap2_fst I a t (by omega) (by omega) (by omega) (by omega) hat]
            congr 1
            apply cntB_congr
            intro s hs
            have hs1 := Finset.mem_Ico.1 (Finset.mem_of_mem_erase hs)
            have hs2 := Finset.ne_of_mem_erase hs
            exact zget_swap2_other I a t s hs2 (by omega)
          have e2 : cntB f I (Finset.Ico a kk) =
              cntB f I ((Finset.Ico a kk).erase a) + (if f (zget I a) then 1 else 0) :=
            cntB_erase f I (Finset.Ico a kk) a haA
          have e4 : cntB f I (Finset.Ico t hi) =
              (if f (zget I t) then 1 else 0) + cntB f I (Finset.Ico (t + 1) hi) :=
            cntB_peel f I t hi hklt
          have e5 : cntB f (swap2 I a t) (Finset.Ico (t + 1) hi) =
              cntB f I (Finset.Ico (t + 1) hi) := by
            apply cntB_congr
            intro s hs
            have hs1 := Finset.mem_Ico.1 hs
            exact zget_swap2_other I a t s (by omega) (by omega)
          omega
        have hL2 := hI2 (fun v => decide (kf v < x))
        have hE2 := hI2 (fun v => decide (kf v = x))
        have hG2 := hI2 (fun v => decide (x < kf v))
        rw [if_neg (by simpa using hnotlt)] at hL2
        rw [if_neg (by simpa using heq)] at hE2
        rw [if_pos (by simpa using hgt)] at hG2
        have hswlen : (swap2 I a t).length = I.length := swap2_length I a t
        have hres := ih (swap2 I a t) j (k + 1) out hsome h0lo hlojj hjjkk hkkhi
          (by omega) hj0 (by omega) hjb (by omega)
          (listing_swap I lo hi M a t hlist (by omega) (by omega) (by omega)
            (by omega) (by omega) (by omega) (by omega) (by omega))
          (by rw [show kk + (k + 1) = t + 1 by omega, ← hadef]; omega)
          (by rw [show kk + (k + 1) = t + 1 by omega, ← hadef]; omega)
          (by rw [show kk + (k + 1) = t + 1 by omega, ← hadef]; omega)
        obtain ⟨r1, r2, r3⟩ := hres
        refine ⟨r1, ?_, by omega⟩
        intro s hs
        rw [r2 s hs]
        exact zget_swap2_other I a t s (by omega) (by omega)
    · rw [if_neg hguard] at hsome
      have hout : out = I := by cases hsome; rfl
      subst hout
      exact ⟨hlist, fun s _ => rfl, rfl⟩

/-- A listing splits at any midpoint into listings of the two slot images. -/
theorem listing_split (I : List ℤ) (lo hi mid : ℤ) (M : Finset ℤ)
    (hl : listing I lo hi M) (h1 : lo ≤ mid) (h2 : mid ≤ hi) :
    (Finset.Ico lo mid).image (fun s => zget I s) ⊆ M ∧
    listing I lo mid ((Finset.Ico lo mid).image (fun s => zget I s)) ∧
    listing I mid hi (M \ (Finset.Ico lo mid).image (fun s => zget I s)) := by
  obtain ⟨ha, hb, hc⟩ := hl
  set A := (Finset.Ico lo mid).image (fun s => zget I s) with hA
  have hinj := listing_inj I lo hi M ⟨ha, hb, hc⟩
  have hsubA : A ⊆ M := by
    intro p hp
    obtain ⟨s, hs, hsp⟩ := Finset.mem_image.1 hp
    have := Finset.mem_Ico.1 hs
    rw [← hsp]
    exact ha s this.1 (by omega)
  have hcardA : A.card = (mid - lo).toNat := by
    rw [hA, Finset.card_image_of_injOn, Int.card_Ico]
    intro s hs t ht hst
    have hs1 := Finset.mem_Ico.1 (Finset.mem_coe.1 hs)
    have ht1 := Finset.mem_Ico.1 (Finset.mem_coe.1 ht)
    exact hinj s t hs1.1 (by omega) ht1.1 (by omega) hst
  refine ⟨hsubA, ⟨?_, ?_, hcardA⟩, ?_, ?_, ?_⟩
  · intro s hs1 hs2
    exact Finset.mem_image.2 ⟨s, Finset.mem_Ico.2 ⟨hs1, hs2⟩, rfl⟩
  · intro p hp
    obtain ⟨s, hs, hsp⟩ := Finset.mem_image.1 hp
    have := Finset.mem_Ico.1 hs
    exact ⟨s, this.1, this.2, hsp⟩
  · intro s hs1 hs2
    refine Finset.mem_sdiff.2 ⟨ha s (by omega) hs2, ?_⟩
    intro hmem
    obtain ⟨t, ht, hts⟩ := Finset.mem_image.1 hmem
    have ht1 := Finset.mem_Ico.1 ht
    have := hinj t s ht1.1 (by omega) (by omega) hs2 hts
    omega
  · intro p hp
    have hp1 := Finset.mem_sdiff.1 hp
    obtain ⟨s, hs1, hs2, hs3⟩ := hb p hp1.1
    rcases lt_or_le s mid with hsm | hsm
    · exact absurd (Finset.mem_image.2 ⟨s, Finset.mem_Ico.2 ⟨hs1, hsm⟩, hs3⟩) hp1.2
    · exact ⟨s, hsm, hs2, hs3⟩
  · rw [Finset.card_sdiff hsubA, hc, hcardA]
    omega

/-- Partial correctness of the base-case scan: it permutes `[k, hi)` (in fact
only `[k, k+i+cnt)`), leaves everything else alone, and returns a bucket
size `j` with `1 ≤ j ≤ i + cnt`. -/
theorem selScan_spec (sameV : Bool) (V V2 : List ℤ) (h k lo hi : ℤ) (M : Finset ℤ) :
    ∀ cnt : ℕ, ∀ I : List ℤ, ∀ i x j : ℤ,
      0 ≤ lo → lo ≤ k → k + i + cnt ≤ hi → hi ≤ (I.length : ℤ) →
      1 ≤ j → j ≤ i →
      listing I lo hi M →
      listing (selScan sameV V V2 h k cnt I i x j).1 lo hi M ∧
      (∀ s : ℤ, s < k ∨ hi ≤ s →
        zget (selScan sameV V V2 h k cnt I i x j).1 s = zget I s) ∧
      (selScan sameV V V2 h k cnt I i x j).1.length = I.length ∧
      1 ≤ (selScan sameV V V2 h k cnt I i x j).2 ∧
      (selScan sameV V V2 h k cnt I i x j).2 ≤ i + cnt := by
  intro cnt
  induction cnt with
  | zero =>
    intro I i x j _ _ _ _ hj1 hji hlist
    have hred : (selScan sameV V V2 h k 0 I i x j).2 = j := rfl
    exact ⟨hlist, fun s _ => rfl, rfl, by omega, by push_cast; omega⟩
  | succ cnt ih =>
    intro I i x j h0lo hlok hbound hlen hj1 hji hlist
    rw [selScan]
    by_cases hklt : keyAt sameV V V2 I (k + i) h < x
    · -- new minimum found: the `=` test then holds with `j1 = 0`
      rw [if_pos (by simp [hklt])]
      simp only [if_pos hklt]
      have hswlen : (swap2 I (k + i) (k + 0)).length = I.length := swap2_length _ _ _
      have := ih (swap2 I (k + i) (k + 0)) (i + 1)
        (keyAt sameV V V2 I (k + i) h) (0 + 1)
        h0lo hlok (by push_cast; omega) (by omega) (by omega) (by omega)
        (listing_swap I lo hi M (k + i) (k + 0) hlist (by omega) (by push_cast at hbound ⊢; omega)
          (by omega) (by omega) (by omega) (by push_cast at hbound ⊢; omega)
          (by omega) (by omega))
      obtain ⟨r1, r2, r3, r4, r5⟩ := this
      refine ⟨r1, ?_, by omega, r4, by push_cast at r5 ⊢; omega⟩
      intro s hs
      rw [r2 s hs]
      exact zget_swap2_other I (k + i) (k + 0) s (by omega) (by omega)
    · simp only [if_neg hklt]
      by_cases heq : keyAt sameV V V2 I (k + i) h = x
      · rw [if_pos heq]
        have hswlen : (swap2 I (k + i) (k + j)).length = I.length := swap2_length _ _ _
        have := ih (swap2 I (k + i) (k + j)) (i + 1) x (j + 1)
          h0lo hlok (by push_cast; omega) (by omega) (by omega) (by omega)
          (listing_swap I lo hi M (k + i) (k + j) hlist (by omega)
            (by push_cast at hbound ⊢; omega) (by omega)
            (by push_cast at hbound ⊢; omega) (by omega)
            (by push_cast at hbound ⊢; omega) (by omega)
            (by push_cast at hbound ⊢; omega))
        obtain ⟨r1, r2, r3, r4, r5⟩ := this
        refine ⟨r1, ?_, by omega, r4, by push_cast at r5 ⊢; omega⟩
        intro s hs
        rw [r2 s hs]
        exact zget_swap2_other I (k + i) (k + j) s (by omega) (by omega)
      · rw [if_neg heq]
        have := ih I (i + 1) x j h0lo hlok (by push_cast; omega) hlen hj1 (by omega) hlist
        obtain ⟨r1, r2, r3, r4, r5⟩ := this
        exact ⟨r1, r2, r3, r4, by push_cast at r5 ⊢; omega⟩

/-- Partial correctness of the base-case commit loop: every position listed in
slots `[k+i, k+i+cnt)` receives the group number `k+j-1` in `V2`; everything
else is untouched. -/
theorem selCommit_spec (k j : ℤ) :
    ∀ cnt : ℕ, ∀ I V2 : List ℤ, ∀ i : ℤ,
      (∀ s : ℤ, k + i ≤ s → s < k + i + cnt →
        0 ≤ zget I s ∧ zget I s < (V2.length : ℤ)) →
      (selCommit k j cnt I V2 i).length = V2.length ∧
      (∀ p : ℤ, (∀ s : ℤ, k + i ≤ s → s < k + i + cnt → zget I s ≠ p) →
        zget (selCommit k j cnt I V2 i) p = zget V2 p) ∧
      (∀ s : ℤ, k + i ≤ s → s < k + i + cnt →
        zget (selCommit k j cnt I V2 i) (zget I s) = k + j - 1) := by
  intro cnt
  induction cnt with
  | zero =>
    intro I V2 i _
    refine ⟨rfl, fun p _ => rfl, fun s hs1 hs2 => ?_⟩
    push_cast at hs2
    omega
  | succ cnt ih =>
    intro I V2 i hbound
    rw [selCommit]
    set V21 := zset V2 (zget I (k + i)) (k + j - 1) with hV21
    have hlen21 : V21.length = V2.length := zset_length _ _ _
    have hb1 : ∀ s : ℤ, k + (i + 1) ≤ s → s < k + (i + 1) + cnt →
        0 ≤ zget I s ∧ zget I s < (V21.length : ℤ) := by
      intro s hs1 hs2
      rw [hlen21]
      exact hbound s (by omega) (by push_cast at hs2 ⊢; omega)
    obtain ⟨r1, r2, r3⟩ := ih I V21 (i + 1) hb1
    refine ⟨by rw [r1, hlen21], ?_, ?_⟩
    · intro p hp
      rw [r2 p (fun s hs1 hs2 => hp s (by omega) (by push_cast at hs2 ⊢; omega))]
      rw [hV21]
      exact zget_zset_ne V2 (zget I (k + i)) (k + j - 1) p
        (Ne.symm (hp (k + i) (by omega) (by push_cast; omega)))
    · intro s hs1 hs2
      by_cases hlater : ∃ t : ℤ, k + (i + 1) ≤ t ∧ t < k + (i + 1) + cnt ∧ zget I t = zget I s
      · obtain ⟨t, ht1, ht2, ht3⟩ := hlater
        rw [← ht3]
        exact r3 t ht1 ht2
      · push_neg at hlater
        have hs : s = k + i := by
          by_contra hne
          exact hlater s (by omega) (by push_cast at hs2 ⊢; omega) rfl
        rw [r2 (zget I s) (fun t ht1 ht2 hc => hlater t ht1 ht2 hc)]
        rw [hV21, hs]
        have := hbound (k + i) (by omega) (by push_cast; omega)
        exact zget_zset_self V2 (zget I (k + i)) (k + j - 1) this.1 (by omega)

/-- Partial correctness of the selection-sort base case of `split`: the
remaining range `[k, start+length)` gets tiled bucket by bucket, each bucket
committed with group number `k + j - 1`, singletons marked `-1`. -/
theorem selOuter_spec (sameV : Bool) (V : List ℤ) (start length h : ℤ) :
    ∀ fuel : ℕ, ∀ I V2 : List ℤ, ∀ k : ℤ, ∀ M : Finset ℤ, ∀ out : List ℤ × List ℤ,
      selOuter sameV V start length h fuel I V2 k = some out →
      0 ≤ k → k ≤ start + length → start + length ≤ (I.length : ℤ) →
      V2.length = I.length →
      listing I k (start + length) M →
      (∀ p ∈ M, 0 ≤ p ∧ p < (I.length : ℤ)) →
      tiled out.2 out.1 k (start + length) M ∧
      (∀ s : ℤ, s < k ∨ start + length ≤ s → zget out.1 s = zget I s) ∧
      (∀ p : ℤ, p ∉ M → zget out.2 p = zget V2 p) ∧
      out.1.length = I.length ∧ out.2.length = V2.length ∧
      (∀ s : ℤ, k ≤ s → s < start + length → zget out.1 s < 0 → zget out.1 s = -1) := by
  intro fuel
  induction fuel with
  | zero =>
    intro I V2 k M out hsome
    simp [selOuter] at hsome
  | succ fuel ih =>
    intro I V2 k M out hsome h0k hkhi hlen hlenV2 hlist hMb
    rw [selOuter] at hsome
    by_cases hguard : k < start + length
    · rw [if_pos hguard] at hsome
      simp only [] at hsome
      generalize hsc : selScan sameV V V2 h k (start + length - (k + 1)).toNat I 1
        (keyAt sameV V V2 I k h) 1 = scanned at hsome
      obtain ⟨I1, j⟩ := scanned
      have hscan := selScan_spec sameV V V2 h k k (start + length) M
        (start + length - (k + 1)).toNat I 1 (keyAt sameV V V2 I k h) 1
        h0k le_rfl (by omega) hlen le_rfl le_rfl hlist
      rw [hsc] at hscan
      simp only [] at hscan
      obtain ⟨hlist1, hframe1, hlen1, hj1, hjile⟩ := hscan
      have hjhi : k + j ≤ start + length := by omega
      have hsplit := listing_split I1 k (start + length) (k + j) M hlist1 (by omega) hjhi
      obtain ⟨hsubB, hlistB, hlistRest⟩ := hsplit
      have hBbound : ∀ p ∈ (Finset.Ico k (k + j)).image (fun s => zget I1 s),
          0 ≤ p ∧ p < (I.length : ℤ) :=
        fun p hp => hMb p (hsubB hp)
      have hcommit := selCommit_spec k j j.toNat I1 V2 0
        (by
          intro s hs1 hs2
          rw [hlenV2]
          have hmem : zget I1 s ∈ (Finset.Ico k (k + j)).image (fun t => zget I1 t) := by
            refine Finset.mem_image.2 ⟨s, Finset.mem_Ico.2 ⟨by omega, ?_⟩, rfl⟩
            push_cast at hs2
            omega
          exact hBbound _ hmem)
      generalize hV21g : selCommit k j j.toNat I1 V2 0 = V21 at hsome hcommit
      obtain ⟨hclen, hcframe, hcset⟩ := hcommit
      have hvalB : ∀ p ∈ (Finset.Ico k (k + j)).image (fun s => zget I1 s),
          zget V21 p = k + j - 1 := by
        intro p hp
        obtain ⟨s, hs, hsp⟩ := Finset.mem_image.1 hp
        have hsi := Finset.mem_Ico.1 hs
        rw [← hsp]
        exact hcset s (by omega) (by push_cast; omega)
      have hV21frame : ∀ p, p ∉ (Finset.Ico k (k + j)).image (fun s => zget I1 s) →
          zget V21 p = zget V2 p := by
        intro p hp
        apply hcframe
        intro s hs1 hs2 hc
        exact hp (Finset.mem_image.2
          ⟨s, Finset.mem_Ico.2 ⟨by omega, by push_cast at hs2; omega⟩, hc⟩)
      generalize hI2g : (if j = (1 : ℤ) then zset I1 k (-1) else I1) = I2 at hsome
      have hlen2 : I2.length = I.length := by
        rw [← hI2g]
        split
        · rw [zset_length, hlen1]
        · exact hlen1
      have hI2frame : ∀ s : ℤ, s ≠ k → zget I2 s = zget I1 s := by
        intro s hs
        rw [← hI2g]
        split
        · exact zget_zset_ne I1 k (-1) s hs
        · rfl
      have hlist2 : listing I2 (k + j) (start + length)
          (M \ (Finset.Ico k (k + j)).image (fun s => zget I1 s)) :=
        listing_frame I1 I2 (k + j) (start + length) _ hlistRest
          (fun s hs1 _ => hI2frame s (by omega))
      have hres := ih I2 V21 (k + j) (M \ (Finset.Ico k (k + j)).image (fun s => zget I1 s))
        out hsome (by omega) hjhi
        (by rw [hlen2]; exact hlen) (by rw [hclen, hlenV2, hlen2])
        hlist2 (fun p hp => by
          have := hMb p (Finset.mem_sdiff.1 hp).1
          rw [hlen2]
          exact this)
      obtain ⟨rt, rfI, rfV, rl1, rl2, rneg⟩ := hres
      have htB : tiled out.2 out.1 k (k + j)
          ((Finset.Ico k (k + j)).image (fun s => zget I1 s)) := by
        have htB0 : tiled V21 I2 k (k + j)
            ((Finset.Ico k (k + j)).image (fun s => zget I1 s)) := by
          apply tiled_single_group V21 I2 k (k + j) (k + j - 1) _ (by omega) (by omega) hvalB

          · rw [(hlistB).2.2]
          · by_cases hj1eq : j = 1
            · right
              refine ⟨by omega, ?_⟩
              rw [← hI2g, if_pos hj1eq]
              rw [zget_zset_self I1 k (-1) h0k (by rw [hlen1]; omega)]
              omega
            · left
              obtain ⟨hbl1, hbl2, _⟩ := hlistB
              rw [← hI2g, if_neg hj1eq]
              constructor
              · intro s hs1 hs2
                exact hbl1 s hs1 (by omega)
              · intro p hp
                obtain ⟨s, hs1, hs2, hs3⟩ := hbl2 p hp
                exact ⟨s, hs1, by omega, hs3⟩
        apply tiled_frame V21 I2 out.2 out.1 ((k + j) - k).toNat k (k + j) _ rfl htB0
        · intro s hs1 hs2
          exact rfI s (Or.inl hs2)
        · intro p hp
          apply rfV
          rw [Finset.mem_sdiff]
          push_neg
          intro _
          exact hp
      have hunion : (Finset.Ico k (k + j)).image (fun s => zget I1 s) ∪
          (M \ (Finset.Ico k (k + j)).image (fun s => zget I1 s)) = M :=
        Finset.union_sdiff_of_subset hsubB
      have htotal : tiled out.2 out.1 k (start + length) M := by
        rw [← hunion]
        exact tiled_append out.2 out.1 ((k + j) - k).toNat k (k + j) (start + length) _ _
          rfl (by omega) (by omega) htB rt Finset.disjoint_sdiff
      refine ⟨htotal, ?_, ?_, by omega, by omega, ?_⟩
      · intro s hs
        rw [rfI s (by omega)]
        rw [hI2frame s (by omega)]
        exact hframe1 s hs
      · intro p hp
        rw [rfV p (by rw [Finset.mem_sdiff]; push_neg; intro hc; exact absurd hc hp)]
        exact hV21frame p (fun hc => hp (hsubB hc))
      · intro s hs1 hs2 hneg
        rcases lt_or_le s (k + j) with hsj | hsj
        · rw [rfI s (Or.inl hsj)] at hneg ⊢
          by_cases hj1eq : j = 1
          · by_cases hsk : s = k
            · rw [hsk, ← hI2g, if_pos hj1eq,
                zget_zset_self I1 k (-1) h0k (by rw [hlen1]; omega)]
            · rw [hI2frame s hsk] at hneg ⊢
              have hmm : zget I1 s ∈ M := (hlist1).1 s (by omega) (by omega)
              have := hMb _ hmm
              omega
          · rw [← hI2g, if_neg hj1eq] at hneg ⊢
            have hmm : zget I1 s ∈ M := (hlist1).1 s (by omega) (by omega)
            have := hMb _ hmm
            omega
        · exact rneg s hsj hs2 hneg
    · rw [if_neg hguard] at hsome
      have hout : out = (I, V2) := by cases hsome; rfl
      subst hout
      have hM : M = ∅ := by
        have := hlist.2.2
        rw [show (start + length - k).toNat = 0 by omega] at this
        exact Finset.card_eq_zero.1 this
      subst hM
      exact ⟨tiled_of_empty _ _ _ _ (by omega), fun s _ => rfl, fun p _ => rfl, rfl, rfl,
        fun s hs1 hs2 _ => by omega⟩

theorem cntB_split_at (f : ℤ → Bool) (I : List ℤ) (a m b : ℤ)
    (h1 : a ≤ m) (h2 : m ≤ b) :
    cntB f I (Finset.Ico a b) = cntB f I (Finset.Ico a m) + cntB f I (Finset.Ico m b) := by
  rw [← cntB_union f I _ _ (Finset.Ico_disjoint_Ico_consecutive a m b)]
  rw [Finset.Ico_union_Ico_eq_Ico h1 h2]

/-- `splitCount` computes the `< x` and `= x` key counts over its scan range. -/
theorem splitCount_spec (sameV : Bool) (V V2 I : List ℤ) (x h : ℤ) :
    ∀ steps : ℕ, ∀ i : ℤ, ∀ acc : ℤ × ℤ,
      splitCount sameV V V2 I x h steps i acc =
        (acc.1 + (cntB (fun v => decide (kfOf sameV V V2 h v < x)) I
            (Finset.Ico i (i + steps)) : ℤ),
          acc.2 + (cntB (fun v => decide (kfOf sameV V V2 h v = x)) I
            (Finset.Ico i (i + steps)) : ℤ)) := by
  intro steps
  induction steps with
  | zero =>
    intro i acc
    rw [splitCount]
    push_cast
    rw [show i + (0 : ℤ) = i by omega, Finset.Ico_self]
    rw [cntB_empty, cntB_empty]
    simp
  | succ steps ih =>
    intro i acc
    rw [splitCount, ih (i + 1), keyAt_kf]
    simp only [Prod.mk.injEq]
    set fL := fun v => decide (kfOf sameV V V2 h v < x) with hfL
    set fE := fun v => decide (kfOf sameV V V2 h v = x) with hfE
    have hpeelL := cntB_peel fL I i (i + ((steps + 1 : ℕ) : ℤ)) (by push_cast; omega)
    have hpeelE := cntB_peel fE I i (i + ((steps + 1 : ℕ) : ℤ)) (by push_cast; omega)
    have hbr1 : cntB fL I (Finset.Ico (i + 1) (i + 1 + (steps : ℤ))) =
        cntB fL I (Finset.Ico (i + 1) (i + ((steps + 1 : ℕ) : ℤ))) := by
      rw [show (i + 1 + (steps : ℤ)) = i + ((steps + 1 : ℕ) : ℤ) by push_cast; omega]
    have hbr2 : cntB fE I (Finset.Ico (i + 1) (i + 1 + (steps : ℤ))) =
        cntB fE I (Finset.Ico (i + 1) (i + ((steps + 1 : ℕ) : ℤ))) := by
      rw [show (i + 1 + (steps : ℤ)) = i + ((steps + 1 : ℕ) : ℤ) by push_cast; omega]
    constructor
    · by_cases hlt : kfOf sameV V V2 h (zget I i) < x
      · rw [if_pos hlt]
        rw [show fL (zget I i) = true by rw [hfL]; simpa using hlt] at hpeelL
        simp only [if_true] at hpeelL
        omega
      · rw [if_neg hlt]
        rw [show fL (zget I i) = false by rw [hfL]; simpa using hlt] at hpeelL
        simp only [Bool.false_eq_true, if_false] at hpeelL
        omega
    · by_cases heq : kfOf sameV V V2 h (zget I i) = x
      · rw [if_pos heq]
        rw [show fE (zget I i) = true by rw [hfE]; simpa using heq] at hpeelE
        simp only [if_true] at hpeelE
        omega
      · rw [if_neg heq]
        rw [show fE (zget I i) = false by rw [hfE]; simpa using heq] at hpeelE
        simp only [Bool.false_eq_true, if_false] at hpeelE
        omega

/-- Partial correctness of the `=`-region commit loop of `split`, identical in
shape to the base-case commit. -/
theorem eqCommit_spec (jj kk : ℤ) :
    ∀ cnt : ℕ, ∀ I V2 : List ℤ, ∀ i : ℤ,
      (∀ s : ℤ, jj + i ≤ s → s < jj + i + cnt →
        0 ≤ zget I s ∧ zget I s < (V2.length : ℤ)) →
      (eqCommit jj kk cnt I V2 i).length = V2.length ∧
      (∀ p : ℤ, (∀ s : ℤ, jj + i ≤ s → s < jj + i + cnt → zget I s ≠ p) →
        zget (eqCommit jj kk cnt I V2 i) p = zget V2 p) ∧
      (∀ s : ℤ, jj + i ≤ s → s < jj + i + cnt →
        zget (eqCommit jj kk cnt I V2 i) (zget I s) = kk - 1) := by
  intro cnt
  induction cnt with
  | zero =>
    intro I V2 i _
    refine ⟨rfl, fun p _ => rfl, fun s hs1 hs2 => ?_⟩
    push_cast at hs2
    omega
  | succ cnt ih =>
    intro I V2 i hbound
    rw [eqCommit]
    set V21 := zset V2 (zget I (jj + i)) (kk - 1) with hV21
    have hlen21 : V21.length = V2.length := zset_length _ _ _
    have hb1 : ∀ s : ℤ, jj + (i + 1) ≤ s → s < jj + (i + 1) + cnt →
        0 ≤ zget I s ∧ zget I s < (V21.length : ℤ) := by
      intro s hs1 hs2
      rw [hlen21]
      exact hbound s (by omega) (by push_cast at hs2 ⊢; omega)
    obtain ⟨r1, r2, r3⟩ := ih I V21 (i + 1) hb1
    refine ⟨by rw [r1, hlen21], ?_, ?_⟩
    · intro p hp
      rw [r2 p (fun s hs1 hs2 => hp s (by omega) (by push_cast at hs2 ⊢; omega))]
      rw [hV21]
      exact zget_zset_ne V2 (zget I (jj + i)) (kk - 1) p
        (Ne.symm (hp (jj + i) (by omega) (by push_cast; omega)))
    · intro s hs1 hs2
      by_cases hlater : ∃ t : ℤ, jj + (i + 1) ≤ t ∧ t < jj + (i + 1) + cnt ∧
          zget I t = zget I s
      · obtain ⟨t, ht1, ht2, ht3⟩ := hlater
        rw [← ht3]
        exact r3 t ht1 ht2
      · push_neg at hlater
        have hs : s = jj + i := by
          by_contra hne
          exact hlater s (by omega) (by push_cast at hs2 ⊢; omega) rfl
        rw [r2 (zget I s) (fun t ht1 ht2 hc => hlater t ht1 ht2 hc)]
        rw [hV21, hs]
        have := hbound (jj + i) (by omega) (by push_cast; omega)
        exact zget_zset_self V2 (zget I (jj + i)) (kk - 1) this.1 (by omega)

/-- Partial correctness of `split` at the permutation level: whenever it
returns, the slot interval it was given is tiled by the refined groups of the
positions listed there, nothing outside the interval (in `I`) or outside the
member set (in `V2`) is touched, and the only negative marks written are `-1`
on singleton groups. -/
theorem split_spec (sameV : Bool) (V : List ℤ) :
    ∀ fuel : ℕ, ∀ I V2 : List ℤ, ∀ start length h : ℤ, ∀ M : Finset ℤ,
      ∀ out : List ℤ × List ℤ,
      split sameV V fuel I V2 start length h = some out →
      0 ≤ start → 0 < length → start + length ≤ (I.length : ℤ) →
      V2.length = I.length →
      listing I start (start + length) M →
      (∀ p ∈ M, 0 ≤ p ∧ p < (I.length : ℤ)) →
      tiled out.2 out.1 start (start + length) M ∧
      (∀ s : ℤ, s < start ∨ start + length ≤ s → zget out.1 s = zget I s) ∧
      (∀ p : ℤ, p ∉ M → zget out.2 p = zget V2 p) ∧
      out.1.length = I.length ∧ out.2.length = V2.length ∧
      (∀ s : ℤ, start ≤ s → s < start + length → zget out.1 s < 0 →
        zget out.1 s = -1) := by
  intro fuel
  induction fuel with
  | zero =>
    intro I V2 start length h M out hsome
    simp [split] at hsome
  | succ fuel ih =>
    intro I V2 start length h M out hsome h0st hlpos hlen hlenV2 hlist hMb
    rw [split] at hsome
    by_cases hbase : length < 16
    · rw [if_pos hbase] at hsome
      exact selOuter_spec sameV V start length h (fuel + 1) I V2 start M out hsome
        h0st (by omega) hlen hlenV2 hlist hMb
    · rw [if_neg hbase] at hsome
      simp only [] at hsome
      generalize hXg : keyAt sameV V V2 I (start + length / 2) h = X at hsome
      have hXv : kfOf sameV V V2 h (zget I (start + length / 2)) = X := by
        rw [← keyAt_kf]; exact hXg
      generalize hCg : splitCount sameV V V2 I X h length.toNat start (0, 0) = counts
        at hsome
      obtain ⟨jjc, kkc⟩ := counts
      have hCspec := splitCount_spec sameV V V2 I X h length.toNat start (0, 0)
      rw [hCg] at hCspec
      simp only [Prod.mk.injEq] at hCspec
      obtain ⟨hjjc, hkkc⟩ := hCspec
      have hrange : start + (length.toNat : ℤ) = start + length := by omega
      rw [hrange] at hjjc hkkc
      simp only [zero_add] at hjjc hkkc
      -- trichotomy of the whole interval
      have htri := cntB_trichotomy (kfOf sameV V V2 h) X I (Finset.Ico start (start + length))
      rw [Int.card_Ico] at htri
      -- the pivot slot witnesses a `=` element
      have hkkc1 : 1 ≤ kkc := by
        have hp : 1 ≤ cntB (fun v => decide (kfOf sameV V V2 h v = X)) I
            (Finset.Ico start (start + length)) := by
          apply cntB_pos _ I _ (start + length / 2)
            (Finset.mem_Ico.2 ⟨by omega, by omega⟩)
          simpa using hXv
        omega
      have hjjc0 : 0 ≤ jjc := by omega
      have hkkle : jjc + kkc ≤ length := by omega
      dsimp only [] at hsome
      generalize hjjg : start + jjc = jj at hsome
      generalize hkkg : jj + kkc = kk at hsome
      have hjjb : start ≤ jj ∧ jj < kk ∧ kk ≤ start + length := by omega
      -- full-interval counts split into the three regions
      have hsplL := cntB_split_at (fun v => decide (kfOf sameV V V2 h v < X)) I
        start jj (start + length) (by omega) (by omega)
      have hsplL2 := cntB_split_at (fun v => decide (kfOf sameV V V2 h v < X)) I
        jj kk (start + length) (by omega) (by omega)
      have hsplE := cntB_split_at (fun v => decide (kfOf sameV V V2 h v = X)) I
        start jj (start + length) (by omega) (by omega)
      have hsplE2 := cntB_split_at (fun v => decide (kfOf sameV V V2 h v = X)) I
        jj kk (start + length) (by omega) (by omega)
      have hsplG := cntB_split_at (fun v => decide (X < kfOf sameV V V2 h v)) I
        start jj (start + length) (by omega) (by omega)
      have hsplG2 := cntB_split_at (fun v => decide (X < kfOf sameV V V2 h v)) I
        jj kk (start + length) (by omega) (by omega)
      -- run part1
      split at hsome
      next hP1 => simp at hsome
      next I1 j1 k1 hP1 =>
        have hpart1 := part1_spec sameV V V2 X h jj kk start (start + length) M
          (fuel + 1) I start 0 0 (I1, j1, k1) hP1 h0st le_rfl (by omega) (by omega)
          (by omega) hlen le_rfl le_rfl (by omega) (by omega) hlist
          (by rw [show jj + (0 : ℤ) = jj by omega, show kk + (0 : ℤ) = kk by omega]; omega)
          (by rw [show jj + (0 : ℤ) = jj by omega, show kk + (0 : ℤ) = kk by omega]; omega)
          (by rw [show jj + (0 : ℤ) = jj by omega, show kk + (0 : ℤ) = kk by omega]; omega)
        simp only [] at hpart1
        obtain ⟨hlist1, hframe1, hlen1, hj10, hk10, hj1b, hk1b, hecL, hecE, hecG⟩ := hpart1
        split at hsome
        next hP2 => simp at hsome
        next I2 hP2 =>
          have hpart2 := part2_spec sameV V V2 X h jj kk start (start + length) M
            (fuel + 1) I1 j1 k1 I2 hP2 h0st (by omega) (by omega) (by omega)
            (by omega) hj10 hk10 hj1b hk1b hlist1 hecL hecE hecG
          obtain ⟨hlist2, hframe2, hlen2⟩ := hpart2
          -- the three member sets
          have hsp1 := listing_split I2 start (start + length) jj M hlist2
            (by omega) (by omega)
          obtain ⟨hsubM1, hlistM1, hlistR1⟩ := hsp1
          have hsp2 := listing_split I2 jj (start + length) kk _ hlistR1
            (by omega) (by omega)
          obtain ⟨hsubM2, hlistM2, hlistR2⟩ := hsp2
          -- left recursion (or nothing)
          have hstep3 : ∀ I3 V23 : List ℤ,
              (if start < jj then split sameV V fuel I2 V2 start (jj - start) h
               else some (I2, V2)) = some (I3, V23) →
              tiled V23 I3 start jj ((Finset.Ico start jj).image (fun s => zget I2 s)) ∧
              (∀ s : ℤ, s < start ∨ jj ≤ s → zget I3 s = zget I2 s) ∧
              (∀ p : ℤ, p ∉ (Finset.Ico start jj).image (fun s => zget I2 s) →
                zget V23 p = zget V2 p) ∧
              I3.length = I.length ∧ V23.length = V2.length ∧
              (∀ s : ℤ, start ≤ s → s < jj → zget I3 s < 0 → zget I3 s = -1) := by
            intro I3 V23 hstep
            by_cases hleft : start < jj
            · rw [if_pos hleft] at hstep
              have := ih I2 V2 start (jj - start) h
                ((Finset.Ico start jj).image (fun s => zget I2 s)) (I3, V23)
                hstep
                h0st (by omega) (by rw [hlen2, hlen1]; omega) (by rw [hlen2, hlen1]; exact hlenV2)
                (by rw [show start + (jj - start) = jj by omega]; exact hlistM1)
                (fun p hp => by
                  have := hMb p (hsubM1 hp)
                  rw [hlen2, hlen1]
                  exact this)
              rw [show start + (jj - start) = jj by omega] at this
              simp only [] at this
              obtain ⟨t1, t2, t3, t4, t5, t6⟩ := this
              exact ⟨t1, t2, t3, by rw [t4, hlen2, hlen1], t5, t6⟩
            · rw [if_neg hleft] at hstep
              have h12 : (I2, V2) = (I3, V23) := Option.some.inj hstep
              cases h12
              have hjjst : jj = start := by omega
              have hM1e : (Finset.Ico start jj).image (fun s => zget I2 s) = ∅ := by
                rw [hjjst, Finset.Ico_self, Finset.image_empty]
              rw [hM1e]
              exact ⟨tiled_of_empty _ _ _ _ (by omega), fun s _ => rfl, fun p _ => rfl,
                by rw [hlen2, hlen1], rfl, fun s hs1 hs2 _ => by omega⟩
          split at hsome
          next hP3 => simp at hsome
          next I3 V23 hP3 =>
            obtain ⟨ht1, hfI3, hfV23, hlen3, hlenV23, hneg3⟩ := hstep3 I3 V23 hP3
            -- the `=` region commit
            have hI3eq : ∀ s : ℤ, jj ≤ s → s < start + length → zget I3 s = zget I2 s :=
              fun s hs1 _ => hfI3 s (Or.inr hs1)
            have hM2mem : ∀ s : ℤ, jj ≤ s → s < kk →
                zget I3 s ∈ (Finset.Ico jj kk).image (fun t => zget I2 t) := by
              intro s hs1 hs2
              rw [hI3eq s hs1 (by omega)]
              exact Finset.mem_image.2 ⟨s, Finset.mem_Ico.2 ⟨hs1, hs2⟩, rfl⟩
            have hcommit := eqCommit_spec jj kk (kk - jj).toNat I3 V23 0
              (by
                intro s hs1 hs2
                rw [Int.toNat_of_nonneg (by omega : (0 : ℤ) ≤ kk - jj)] at hs2
                have hmem := hM2mem s (by omega) (by omega)
                have hMmem : zget I3 s ∈ M := Finset.sdiff_subset (hsubM2 hmem)
                rw [hlenV23, hlenV2]
                exact hMb _ hMmem)
            generalize hV24g : eqCommit jj kk (kk - jj).toNat I3 V23 0 = V24 at hsome hcommit
            obtain ⟨hclen, hcframe, hcset⟩ := hcommit
            have hvalM2 : ∀ p ∈ (Finset.Ico jj kk).image (fun t => zget I2 t),
                zget V24 p = kk - 1 := by
              intro p hp
              obtain ⟨s, hs, hsp⟩ := Finset.mem_image.1 hp
              have hsi := Finset.mem_Ico.1 hs
              rw [← hsp, ← hI3eq s hsi.1 (by omega)]
              exact hcset s (by omega)
                (by rw [Int.toNat_of_nonneg (by omega : (0 : ℤ) ≤ kk - jj)]; omega)
            have hV24frame : ∀ p, p ∉ (Finset.Ico jj kk).image (fun t => zget I2 t) →
                zget V24 p = zget V23 p := by
              intro p hp
              apply hcframe
              intro s hs1 hs2 hc
              rw [Int.toNat_of_nonneg (by omega : (0 : ℤ) ≤ kk - jj)] at hs2
              apply hp
              rw [← hc, hI3eq s (by omega) (by omega)]
              exact Finset.mem_image.2 ⟨s, Finset.mem_Ico.2 ⟨by omega, by omega⟩, rfl⟩
            generalize hI4g : (if jj = kk - 1 then zset I3 jj (-1) else I3) = I4 at hsome
            have hlen4 : I4.length = I.length := by
              rw [← hI4g]
              split
              · rw [zset_length, hlen3]
              · exact hlen3
            have hI4frame : ∀ s : ℤ, s ≠ jj → zget I4 s = zget I3 s := by
              intro s hs
              rw [← hI4g]
              split
              · exact zget_zset_ne I3 jj (-1) s hs
              · rfl
            -- the `=` region as a single tiled group
            have hT2 : tiled V24 I4 jj kk ((Finset.Ico jj kk).image (fun t => zget I2 t)) := by
              apply tiled_single_group V24 I4 jj kk (kk - 1) _ rfl (by omega) hvalM2
              · exact (hlistM2).2.2
              · by_cases hsing : jj = kk - 1
                · right
                  refine ⟨by omega, ?_⟩
                  rw [← hI4g, if_pos hsing,
                    zget_zset_self I3 jj (-1) (by omega) (by rw [hlen3]; omega)]
                  omega
                · left
                  rw [← hI4g, if_neg hsing]
                  obtain ⟨hb1, hb2, _⟩ := hlistM2
                  constructor
                  · intro s hs1 hs2
                    rw [hI3eq s hs1 (by omega)]
                    exact hb1 s hs1 (by omega)
                  · intro p hp
                    obtain ⟨s, hs1, hs2, hs3⟩ := hb2 p hp
                    exact ⟨s, hs1, by omega, by rw [hI3eq s hs1 (by omega)]; exact hs3⟩
            have hMid : ((Finset.Ico start jj).image (fun s => zget I2 s) ∪
                  (Finset.Ico jj kk).image (fun t => zget I2 t)) ∪
                  ((M \ (Finset.Ico start jj).image (fun s => zget I2 s))
                    \ (Finset.Ico jj kk).image (fun t => zget I2 t)) = M := by
              rw [Finset.union_assoc,
                Finset.union_sdiff_of_subset hsubM2,
                Finset.union_sdiff_of_subset hsubM1]
            have hdis12 : Disjoint ((Finset.Ico start jj).image (fun s => zget I2 s))
                ((Finset.Ico jj kk).image (fun t => zget I2 t)) := by
              apply Finset.disjoint_left.2
              intro p hp1 hp2
              exact (Finset.mem_sdiff.1 (hsubM2 hp2)).2 hp1
            have hdis3 : Disjoint ((Finset.Ico start jj).image (fun s => zget I2 s) ∪
                  (Finset.Ico jj kk).image (fun t => zget I2 t))
                ((M \ (Finset.Ico start jj).image (fun s => zget I2 s))
                    \ (Finset.Ico jj kk).image (fun t => zget I2 t)) := by
              apply Finset.disjoint_left.2
              intro p hp1 hp2
              have h3 := Finset.mem_sdiff.1 hp2
              have h4 := Finset.mem_sdiff.1 h3.1
              rcases Finset.mem_union.1 hp1 with hc | hc
              · exact h4.2 hc
              · exact h3.2 hc
            by_cases hright : kk < start + length
            · rw [if_pos hright] at hsome
              have hlist4 : listing I4 kk (start + length)
                  ((M \ (Finset.Ico start jj).image (fun s => zget I2 s))
                    \ (Finset.Ico jj kk).image (fun t => zget I2 t)) := by
                apply listing_frame I2 I4 kk (start + length) _ hlistR2
                intro s hs1 hs2
                rw [hI4frame s (by omega), hI3eq s (by omega) hs2]
              have hresR := ih I4 V24 kk (start + length - kk) h
                ((M \ (Finset.Ico start jj).image (fun s => zget I2 s))
                    \ (Finset.Ico jj kk).image (fun t => zget I2 t)) out hsome
                (by omega) (by omega) (by rw [hlen4]; omega)
                (by rw [hclen, hlenV23, hlenV2, hlen4])
                (by rw [show kk + (start + length - kk) = start + length by omega]
                    exact hlist4)
                (fun p hp => by
                  have := hMb p (Finset.sdiff_subset (Finset.sdiff_subset hp))
                  rw [hlen4]
                  exact this)
              rw [show kk + (start + length - kk) = start + length by omega] at hresR
              obtain ⟨rt, rfI, rfV, rl1, rl2, rneg⟩ := hresR
              have hnotM3 : ∀ p : ℤ, p ∈ (Finset.Ico start jj).image (fun s => zget I2 s) ∪
                  (Finset.Ico jj kk).image (fun t => zget I2 t) →
                  p ∉ (M \ (Finset.Ico start jj).image (fun s => zget I2 s))
                    \ (Finset.Ico jj kk).image (fun t => zget I2 t) :=
                fun p hp hc => Finset.disjoint_left.1 hdis3 hp hc
              have hT1f : tiled out.2 out.1 start jj
                  ((Finset.Ico start jj).image (fun s => zget I2 s)) := by
                apply tiled_frame V23 I3 out.2 out.1 (jj - start).toNat start jj _ rfl ht1
                · intro s hs1 hs2
                  rw [rfI s (Or.inl (by omega)), hI4frame s (by omega)]
                · intro p hp
                  rw [rfV p (hnotM3 p (Finset.mem_union_left _ hp)),
                    hV24frame p (fun hc => Finset.disjoint_left.1 hdis12 hp hc)]
              have hT2f : tiled out.2 out.1 jj kk
                  ((Finset.Ico jj kk).image (fun t => zget I2 t)) := by
                apply tiled_frame V24 I4 out.2 out.1 (kk - jj).toNat jj kk _ rfl hT2
                · intro s hs1 hs2
                  exact rfI s (Or.inl (by omega))
                · intro p hp
                  exact rfV p (hnotM3 p (Finset.mem_union_right _ hp))
              have htot : tiled out.2 out.1 start (start + length) M := by
                rw [← hMid]
                apply tiled_append out.2 out.1 (kk - start).toNat start kk (start + length)
                  _ _ rfl (by omega) (by omega) ?_ rt hdis3
                exact tiled_append out.2 out.1 (jj - start).toNat start jj kk _ _ rfl
                  (by omega) (by omega) hT1f hT2f hdis12
              refine ⟨htot, ?_, ?_, by omega, ?_, ?_⟩
              · intro s hs
                rw [rfI s (by omega), hI4frame s (by omega), hfI3 s (by omega),
                  hframe2 s hs, hframe1 s hs]
              · intro p hp
                rw [rfV p (fun hc => hp (Finset.sdiff_subset (Finset.sdiff_subset hc))),
                  hV24frame p (fun hc => hp (Finset.sdiff_subset (hsubM2 hc))),
                  hfV23 p (fun hc => hp (hsubM1 hc))]
              · rw [rl2, hclen, hlenV23]
              · intro s hs1 hs2 hneg
                rcases lt_or_le s kk with hsk | hsk
                · rw [rfI s (Or.inl hsk)] at hneg ⊢
                  rcases lt_or_le s jj with hsj | hsj
                  · rw [hI4frame s (by omega)] at hneg ⊢
                    exact hneg3 s hs1 hsj hneg
                  · by_cases hsing : jj = kk - 1
                    · have hsjj : s = jj := by omega
                      rw [hsjj, ← hI4g, if_pos hsing,
                        zget_zset_self I3 jj (-1) (by omega) (by rw [hlen3]; omega)]
                    · rw [← hI4g, if_neg hsing] at hneg ⊢
                      have hmem := hM2mem s hsj hsk
                      have := hMb _ (Finset.sdiff_subset (hsubM2 hmem))
                      omega
                · exact rneg s hsk hs2 hneg
            · rw [if_neg hright] at hsome
              have hkkhi : kk = start + length := by omega
              have hout : out = (I4, V24) := by
                have := Option.some.inj hsome
                exact this.symm
              subst hout
              have hM3e : (M \ (Finset.Ico start jj).image (fun s => zget I2 s))
                    \ (Finset.Ico jj kk).image (fun t => zget I2 t) = ∅ := by
                have := hlistR2.2.2
                rw [show (start + length - kk).toNat = 0 by omega] at this
                exact Finset.card_eq_zero.1 this
              have hT1f : tiled V24 I4 start jj
                  ((Finset.Ico start jj).image (fun s => zget I2 s)) := by
                apply tiled_frame V23 I3 V24 I4 (jj - start).toNat start jj _ rfl ht1
                · intro s hs1 hs2
                  exact hI4frame s (by omega)
                · intro p hp
                  exact hV24frame p (fun hc => Finset.disjoint_left.1 hdis12 hp hc)
              have htot : tiled V24 I4 start (start + length) M := by
                have h12 : tiled V24 I4 start kk
                    ((Finset.Ico start jj).image (fun s => zget I2 s) ∪
                      (Finset.Ico jj kk).image (fun t => zget I2 t)) :=
                  tiled_append V24 I4 (jj - start).toNat start jj kk _ _ rfl
                    (by omega) (by omega) hT1f hT2 hdis12
                have hM12 : (Finset.Ico start jj).image (fun s => zget I2 s) ∪
                    (Finset.Ico jj kk).image (fun t => zget I2 t) = M := by
                  rw [← hMid, hM3e, Finset.union_empty]
                rw [← hkkhi]
                rw [← hM12]
                exact h12
              refine ⟨htot, ?_, ?_, hlen4, ?_, ?_⟩
              · intro s hs
                rw [hI4frame s (by omega), hfI3 s (by omega), hframe2 s hs, hframe1 s hs]
              · intro p hp
                rw [hV24frame p (fun hc => hp (Finset.sdiff_subset (hsubM2 hc))),
                  hfV23 p (fun hc => hp (hsubM1 hc))]
              · rw [hclen, hlenV23]
              · intro s hs1 hs2 hneg
                dsimp only [] at hneg ⊢
                rcases lt_or_le s jj with hsj | hsj
                · rw [hI4frame s (by omega)] at hneg ⊢
                  exact hneg3 s hs1 hsj hneg
                · by_cases hsing : jj = kk - 1
                  · have hsjj : s = jj := by omega
                    rw [hsjj, ← hI4g, if_pos hsing,
                      zget_zset_self I3 jj (-1) (by omega) (by rw [hlen3]; omega)]
                  · rw [← hI4g, if_neg hsing] at hneg ⊢
                    have hmem := hM2mem s hsj (by omega)
                    have := hMb _ (Finset.sdiff_subset (hsubM2 hmem))
                    omega

/-! ### Negative-run honesty -/

/-- Every negative entry of `I` inside `[0, b)` honestly covers a run of
consecutive negative slots that stays inside the interval. -/
def runsOK (I : List ℤ) (b : ℤ) : Prop :=
  ∀ s : ℤ, 0 ≤ s → s < b → zget I s < 0 →
    s - zget I s ≤ b ∧ ∀ t : ℤ, s ≤ t → t < s - zget I s → zget I t < 0

/-- A tiling survives rewriting `I` as long as every slot either keeps its
value or stays negative, provided all members are nonnegative (so listed slots
are forced into the value-preserving case). -/
theorem tiled_reframe (V I V2 I2 : List ℤ) :
    ∀ m : ℕ, ∀ a b : ℤ, ∀ M : Finset ℤ, (b - a).toNat = m →
      tiled V I a b M →
      (∀ p ∈ M, 0 ≤ p) →
      (∀ s, a ≤ s → s < b → zget I2 s = zget I s ∨ (zget I s < 0 ∧ zget I2 s < 0)) →
      (∀ p ∈ M, zget V2 p = zget V p) →
      tiled V2 I2 a b M := by
  intro m
  induction m using Nat.strong_induction_on with
  | _ m ih =>
    intro a b M hm ht hMpos hI hV
    rcases le_or_lt b a with hba | hab
    · rw [tiled_stop V I a b M ht hba]
      exact tiled_of_empty _ _ _ _ hba
    · obtain ⟨g, hg1, hg2, hcard, hlist, htail⟩ := tiled_elim V I a b M ht hab
      have hfib : fiber V2 M g = fiber V M g := by
        apply Finset.filter_congr
        intro p hp
        simp [hV p hp]
      apply tiled_intro V2 I2 a b M g hab hg1 hg2
      · rw [hfib]; exact hcard
      · rcases hlist with ⟨hl1, hl2⟩ | ⟨hge, hneg⟩
        · left
          constructor
          · intro s hs1 hs2
            have hmem := hl1 s hs1 hs2
            have hpos : 0 ≤ zget I s := hMpos _ (Finset.filter_subset _ _ hmem)
            rcases hI s hs1 (by omega) with he | hn
            · rw [hfib, he]; exact hmem
            · omega
          · intro p hp
            rw [hfib] at hp
            obtain ⟨s, hs1, hs2, hs3⟩ := hl2 p hp
            have hpos : 0 ≤ p := hMpos _ (Finset.filter_subset _ _ hp)
            rcases hI s hs1 (by omega) with he | hn
            · exact ⟨s, hs1, hs2, by rw [he]; exact hs3⟩
            · omega
        · right
          refine ⟨hge, ?_⟩
          rcases hI a le_rfl hab with he | hn
          · rw [he]; exact hneg
          · omega
      · rw [hfib]
        apply ih (b - (g + 1)).toNat (by omega) (g + 1) b _ rfl htail
        · intro p hp; exact hMpos p (Finset.mem_sdiff.1 hp).1
        · intro s hs1 hs2; exact hI s (by omega) hs2
        · intro p hp; exact hV p (Finset.mem_sdiff.1 hp).1

/-- Removing members whose group number differs from `g` leaves the fiber at
`g` unchanged. -/
theorem fiber_sdiff_ne (V : List ℤ) (M F : Finset ℤ) (g : ℤ)
    (h : ∀ p ∈ F, zget V p ≠ g) :
    fiber V (M \ F) g = fiber V M g := by
  unfold fiber
  apply Finset.ext
  intro p
  simp only [Finset.mem_filter, Finset.mem_sdiff]
  constructor
  · rintro ⟨⟨h1, _⟩, h3⟩; exact ⟨h1, h3⟩
  · rintro ⟨h1, h3⟩
    exact ⟨⟨h1, fun hc => h p hc h3⟩, h3⟩

/-- If the first `j` slots of a tiled interval all hold negative values, they
are `j` leading singleton groups, and the tiling splits at `a + j`. -/
theorem tiled_peel_negs (V I : List ℤ) :
    ∀ j : ℕ, ∀ a b : ℤ, ∀ M : Finset ℤ,
      tiled V I a b M → (∀ p ∈ M, 0 ≤ p) →
      a + j ≤ b →
      (∀ t : ℤ, a ≤ t → t < a + j → zget I t < 0) →
      ∃ Mneg : Finset ℤ, Mneg ⊆ M ∧
        tiled V I a (a + j) Mneg ∧
        tiled V I (a + j) b (M \ Mneg) := by
  intro j
  induction j with
  | zero =>
    intro a b M ht hMpos hj hneg
    refine ⟨∅, Finset.empty_subset _, tiled_of_empty _ _ _ _ (by omega), ?_⟩
    rw [Finset.sdiff_empty]
    rw [show a + ((0 : ℕ) : ℤ) = a by omega]
    exact ht
  | succ j ih =>
    intro a b M ht hMpos hj hneg
    have hab : a < b := by
      have : (((j : ℕ) + 1 : ℕ) : ℤ) = (j : ℤ) + 1 := by push_cast; ring
      omega
    obtain ⟨g, hg1, hg2, hcard, hlist, htail⟩ := tiled_elim V I a b M ht hab
    have hga : g = a := by
      rcases hlist with ⟨hl1, _⟩ | ⟨hge, _⟩
      · have hmem := hl1 a le_rfl hg1
        have h1 := hMpos _ (Finset.filter_subset _ _ hmem)
        have h2 := hneg a le_rfl (by push_cast; omega)
        omega
      · exact hge
    subst hga
    obtain ⟨Mneg', hsub', ht1', ht2'⟩ := ih (g + 1) b (M \ fiber V M g) htail
      (fun p hp => hMpos p (Finset.mem_sdiff.1 hp).1)
      (by push_cast at hj ⊢; omega)
      (fun t ht1 ht2 => hneg t (by omega) (by push_cast at ht2 ⊢; omega))
    have hvn' : ∀ p ∈ Mneg', zget V p ≠ g := by
      intro p hp
      have := tiled_val_range V I (g + 1 + (j : ℤ) - (g + 1)).toNat (g + 1)
        (g + 1 + (j : ℤ)) Mneg' rfl ht1' p hp
      omega
    have hfibg : ∀ p ∈ fiber V M g, zget V p = g := by
      intro p hp
      have := (Finset.mem_filter.1 hp).2
      simpa using this
    have hdisF : Disjoint (fiber V M g) Mneg' := by
      apply Finset.disjoint_left.2
      intro p hp1 hp2
      exact hvn' p hp2 (hfibg p hp1)
    refine ⟨fiber V M g ∪ Mneg', ?_, ?_, ?_⟩
    · apply Finset.union_subset (Finset.filter_subset _ _)
      exact hsub'.trans Finset.sdiff_subset
    · have hfibU : fiber V (fiber V M g ∪ Mneg') g = fiber V M g := by
        apply Finset.ext
        intro p
        unfold fiber
        simp only [Finset.mem_filter, Finset.mem_union, decide_eq_true_eq]
        constructor
        · rintro ⟨h1 | h1, h3⟩
          · exact ⟨h1.1, h3⟩
          · exact absurd h3 (hvn' p h1)
        · rintro ⟨h1, h3⟩
          exact ⟨Or.inl ⟨h1, h3⟩, h3⟩
      apply tiled_intro V I g (g + ((j : ℕ) + 1 : ℕ)) (fiber V M g ∪ Mneg') g
        (by push_cast; omega) le_rfl (by push_cast; omega)
      · rw [hfibU]
        rw [show (g - g + 1).toNat = 1 by omega]
        rw [show (g - g + 1).toNat = 1 by omega] at hcard
        exact hcard
      · rw [hfibU]
        right
        exact ⟨rfl, hneg g le_rfl (by push_cast; omega)⟩
      · rw [hfibU]
        have hsd : (fiber V M g ∪ Mneg') \ fiber V M g = Mneg' := by
          rw [Finset.union_sdiff_distrib, Finset.sdiff_self, Finset.empty_union]
          exact Finset.sdiff_eq_self_of_disjoint hdisF.symm
        rw [hsd]
        rw [show g + (((j : ℕ) + 1 : ℕ) : ℤ) = g + 1 + (j : ℤ) by push_cast; ring]
        exact ht1'
    · have hsd2 : M \ (fiber V M g ∪ Mneg') = (M \ fiber V M g) \ Mneg' := by
        apply Finset.ext
        intro p
        simp only [Finset.mem_sdiff, Finset.mem_union]
        tauto
      rw [hsd2]
      rw [show g + (((j : ℕ) + 1 : ℕ) : ℤ) = g + 1 + (j : ℤ) by push_cast; ring]
      exact ht2'

/-- If every slot of a tiled interval holds a negative value, every group
number of the interval has a fiber of size exactly one. -/
theorem tiled_allneg_fiber (V I : List ℤ) :
    ∀ m : ℕ, ∀ a b : ℤ, ∀ M : Finset ℤ, (b - a).toNat = m →
      tiled V I a b M → (∀ p ∈ M, 0 ≤ p) →
      (∀ s, a ≤ s → s < b → zget I s < 0) →
      ∀ g, a ≤ g → g < b → (fiber V M g).card = 1 := by
  intro m
  induction m using Nat.strong_induction_on with
  | _ m ih =>
    intro a b M hm ht hMpos hneg g hg1 hg2
    obtain ⟨g0, hg01, hg02, hcard, hlist, htail⟩ := tiled_elim V I a b M ht (by omega)
    have hg0a : g0 = a := by
      rcases hlist with ⟨hl1, _⟩ | ⟨hge, _⟩
      · have hmem := hl1 a le_rfl hg01
        have h1 := hMpos _ (Finset.filter_subset _ _ hmem)
        have h2 := hneg a le_rfl (by omega)
        omega
      · exact hge
    subst hg0a
    rcases eq_or_lt_of_le hg1 with hga | hga
    · rw [← hga]
      rw [show (g0 - g0 + 1).toNat = 1 by omega] at hcard
      exact hcard
    · have hfibeq : fiber V (M \ fiber V M g0) g = fiber V M g := by
        apply fiber_sdiff_ne
        intro p hp
        have := (Finset.mem_filter.1 hp).2
        simp only [decide_eq_true_eq] at this
        omega
      rw [← hfibeq]
      exact ih (b - (g0 + 1)).toNat (by omega) (g0 + 1) b _ rfl htail
        (fun p hp => hMpos p (Finset.mem_sdiff.1 hp).1)
        (fun s hs1 hs2 => hneg s (by omega) hs2) g (by omega) hg2

/-! ### Pointwise laws of `List.set`/`List.getD` (for the bucket arrays) -/

theorem getD_set_self (B : List ℤ) :
    ∀ c : ℕ, ∀ v : ℤ, c < B.length → (B.set c v).getD c 0 = v := by
  induction B with
  | nil => intro c v hc; simp at hc
  | cons x xs ih =>
    intro c v hc
    cases c with
    | zero => rfl
    | succ c =>
      simp only [List.set, List.getD, List.getElem?_cons_succ]
      have := ih c v (by simpa using hc)
      simpa [List.getD] using this

theorem getD_set_ne (B : List ℤ) :
    ∀ c d : ℕ, ∀ v : ℤ, c ≠ d → (B.set c v).getD d 0 = B.getD d 0 := by
  induction B with
  | nil => intro c d v _; simp [List.set]
  | cons x xs ih =>
    intro c d v hcd
    cases c with
    | zero =>
      cases d with
      | zero => exact absurd rfl hcd
      | succ d => rfl
    | succ c =>
      cases d with
      | zero => rfl
      | succ d =>
        simp only [List.set, List.getD, List.getElem?_cons_succ]
        have := ih c d v (fun h => hcd (by rw [h]))
        simpa [List.getD] using this

/-! ### The sequential sweep preserves the tiling -/

theorem sweepSeq_spec (F : ℕ) (n h : ℤ) :
    ∀ fuel : ℕ, ∀ I V : List ℤ, ∀ i nacc : ℤ, ∀ Md Mr : Finset ℤ,
      ∀ out : List ℤ × List ℤ × ℤ × ℤ,
      sweepSeq F n h fuel I V i nacc = some out →
      0 ≤ nacc → nacc ≤ i → i ≤ n + 1 → 0 ≤ n →
      I.length = n.toNat + 1 → V.length = n.toNat + 1 →
      tiled V I 0 i Md →
      tiled V I i (n + 1) Mr →
      Disjoint Md Mr →
      Md ∪ Mr = Finset.Ico 0 (n + 1) →
      (∀ t : ℤ, i - nacc ≤ t → t < i → zget I t < 0) →
      runsOK I (n + 1) →
      out.2.2.1 = n + 1 ∧ 0 ≤ out.2.2.2 ∧ out.2.2.2 ≤ n + 1 ∧
      tiled out.2.1 out.1 0 (n + 1) (Finset.Ico 0 (n + 1)) ∧
      (∀ t : ℤ, out.2.2.1 - out.2.2.2 ≤ t → t < out.2.2.1 → zget out.1 t < 0) ∧
      runsOK out.1 (n + 1) ∧
      out.1.length = n.toNat + 1 ∧ out.2.1.length = n.toNat + 1 := by
  intro fuel
  induction fuel with
  | zero =>
    intro I V i nacc Md Mr out hsome
    simp [sweepSeq] at hsome
  | succ fuel ih =>
    intro I V i nacc Md Mr out hsome hnacc0 hnacci hin1 hn0 hlenI hlenV
      hT1 hT2 hdis hunion hpend hrOK
    have hMdpos : ∀ p ∈ Md, 0 ≤ p := by
      intro p hp
      have hm : p ∈ Finset.Ico (0 : ℤ) (n + 1) :=
        hunion ▸ Finset.mem_union_left _ hp
      exact (Finset.mem_Ico.1 hm).1
    have hMrmem : ∀ p ∈ Mr, 0 ≤ p ∧ p < n + 1 := by
      intro p hp
      have hm : p ∈ Finset.Ico (0 : ℤ) (n + 1) :=
        hunion ▸ Finset.mem_union_right _ hp
      exact Finset.mem_Ico.1 hm
    rw [sweepSeq] at hsome
    by_cases hin : i < n + 1
    · rw [if_pos hin] at hsome
      by_cases hni : zget I i < 0
      · -- skip a combined run of sorted singleton groups
        rw [if_pos hni] at hsome
        obtain ⟨hr1, hr2⟩ := hrOK i (by omega) hin hni
        obtain ⟨Mneg, hsubn, htn1, htn2⟩ := tiled_peel_negs V I (-zget I i).toNat
          i (n + 1) Mr hT2 (fun p hp => (hMrmem p hp).1) (by omega)
          (fun t ht1 ht2 => hr2 t ht1 (by omega))
        rw [show i + ((-zget I i).toNat : ℤ) = i - zget I i by omega] at htn1 htn2
        have hT1' : tiled V I 0 (i - zget I i) (Md ∪ Mneg) :=
          tiled_append V I (i - 0).toNat 0 i (i - zget I i) Md Mneg rfl
            (by omega) (by omega) hT1 htn1
            (Finset.disjoint_of_subset_right hsubn hdis)
        have hres := ih I V (i - zget I i) (nacc - zget I i) (Md ∪ Mneg)
          (Mr \ Mneg) out hsome (by omega) (by omega) hr1 hn0 hlenI hlenV
          hT1' htn2 ?_ ?_ ?_ hrOK
        · exact hres
        · rw [Finset.disjoint_union_left]
          exact ⟨Finset.disjoint_of_subset_right Finset.sdiff_subset hdis,
            disjoint_sdiff_self_right⟩
        · rw [Finset.union_assoc, Finset.union_sdiff_of_subset hsubn]
          exact hunion
        · intro t ht1 ht2
          rcases lt_or_le t i with hti | hti
          · exact hpend t (by omega) hti
          · exact hr2 t hti ht2
      · -- dispatch: the group at `i` is split in place
        rw [if_neg hni] at hsome
        simp only [] at hsome
        generalize hI1g : (if nacc ≠ 0 then zset I (i - nacc) (-nacc) else I) = I1
          at hsome
        have hcases : (nacc = 0 ∧ I1 = I) ∨
            (1 ≤ nacc ∧ I1 = zset I (i - nacc) (-nacc) ∧ zget I (i - nacc) < 0) := by
          by_cases hn00 : nacc = 0
          · exact Or.inl ⟨hn00, by rw [← hI1g, if_neg (not_not_intro hn00)]⟩
          · exact Or.inr ⟨by omega, by rw [← hI1g, if_pos hn00],
              hpend (i - nacc) le_rfl (by omega)⟩
        have hlen1 : I1.length = I.length := by
          rcases hcases with ⟨_, he⟩ | ⟨_, he, _⟩
          · rw [he]
          · rw [he, zset_length]
        have hI1ge : ∀ s : ℤ, i ≤ s → zget I1 s = zget I s := by
          intro s hs
          rcases hcases with ⟨_, he⟩ | ⟨hn1, he, _⟩
          · rw [he]
          · rw [he]; exact zget_zset_ne I (i - nacc) (-nacc) s (by omega)
        have hI1lt : ∀ s : ℤ, 0 ≤ s → s < i →
            zget I1 s = zget I s ∨ (zget I s < 0 ∧ zget I1 s < 0) := by
          intro s h0 hsi
          rcases hcases with ⟨_, he⟩ | ⟨hn1, he, hold⟩
          · left; rw [he]
          · by_cases hse : s = i - nacc
            · right
              refine ⟨by rw [hse]; exact hold, ?_⟩
              rw [he, hse, zget_zset_self I (i - nacc) (-nacc) (by omega)
                (by rw [hlenI]; omega)]
              omega
            · left; rw [he]; exact zget_zset_ne I (i - nacc) (-nacc) s hse
        have hI1keep : ∀ t : ℤ, 0 ≤ t → t < i → zget I t < 0 → zget I1 t < 0 := by
          intro t h0 hti hneg
          rcases hI1lt t h0 hti with he | ⟨_, h2⟩
          · omega
          · exact h2
        have hI1pend : ∀ t : ℤ, i - nacc ≤ t → t < i → zget I1 t < 0 := by
          intro t ht1 ht2
          exact hI1keep t (by omega) ht2 (hpend t ht1 ht2)
        generalize hgw : zget V (zget I1 i) + 1 - i = gw at hsome
        obtain ⟨g0, hg01, hg02, hcard, hlist0, htail⟩ :=
          tiled_elim V I i (n + 1) Mr hT2 (by omega)
        rcases hlist0 with ⟨hl1, hl2⟩ | ⟨_, hnegg⟩
        swap
        · omega
        have hIiF : zget I i ∈ fiber V Mr g0 := hl1 i le_rfl hg01
        have hVIi : zget V (zget I i) = g0 := by
          have := (Finset.mem_filter.1 hIiF).2
          simpa using this
        have hgwv : gw = g0 + 1 - i := by
          rw [← hgw, hI1ge i le_rfl, hVIi]
        have hfsub : fiber V Mr g0 ⊆ Mr := Finset.filter_subset _ _
        have hcastI1 : (I1.length : ℤ) = n + 1 := by
          rw [hlen1, hlenI]; push_cast; omega
        have hlst : listing I1 i (i + gw) (fiber V Mr g0) := by
          refine ⟨?_, ?_, ?_⟩
          · intro s hs1 hs2
            rw [hI1ge s hs1]
            exact hl1 s hs1 (by omega)
          · intro p hp
            obtain ⟨s, hs1, hs2, hs3⟩ := hl2 p hp
            exact ⟨s, hs1, by omega, by rw [hI1ge s hs1]; exact hs3⟩
          · rw [hcard]
            congr 1
            omega
        split at hsome
        · exact absurd hsome (by simp)
        next I2 V2m heq =>
          obtain ⟨htS, hfI, hfV, hlen2, hlenV2m, hnegS⟩ :=
            split_spec true V F I1 V i gw h (fiber V Mr g0) (I2, V2m) heq
              (by omega) (by omega) (by omega) (by rw [hlenV, hlen1, hlenI]) hlst
              (fun p hp => by
                have := hMrmem p (hfsub hp)
                omega)
          have hvleft : ∀ t : ℤ, t < i → zget I2 t = zget I1 t :=
            fun t ht => hfI t (Or.inl ht)
          have hvright : ∀ t : ℤ, i + gw ≤ t → zget I2 t = zget I t := by
            intro t ht
            rw [hfI t (Or.inr ht), hI1ge t (by omega)]
          have hT1new : tiled V2m I2 0 i Md := by
            apply tiled_reframe V I V2m I2 (i - 0).toNat 0 i Md rfl hT1 hMdpos
            · intro s hs1 hs2
              rcases hI1lt s hs1 hs2 with he | ⟨h1, h2⟩
              · left; rw [hvleft s hs2, he]
              · right; exact ⟨h1, by rw [hvleft s hs2]; exact h2⟩
            · intro p hp
              exact hfV p (fun hc => Finset.disjoint_left.1 hdis hp (hfsub hc))
          have hT1app : tiled V2m I2 0 (i + gw) (Md ∪ fiber V Mr g0) :=
            tiled_append V2m I2 (i - 0).toNat 0 i (i + gw) Md (fiber V Mr g0) rfl
              (by omega) (by omega) hT1new htS
              (Finset.disjoint_of_subset_right hfsub hdis)
          have hT2new : tiled V2m I2 (i + gw) (n + 1) (Mr \ fiber V Mr g0) := by
            rw [show i + gw = g0 + 1 by omega]
            apply tiled_reframe V I V2m I2 (n + 1 - (g0 + 1)).toNat (g0 + 1)
              (n + 1) (Mr \ fiber V Mr g0) rfl htail
              (fun p hp => (hMrmem p (Finset.mem_sdiff.1 hp).1).1)
            · intro s hs1 hs2
              left
              rw [show g0 + 1 = i + gw by omega] at hs1
              exact hvright s hs1
            · intro p hp
              exact hfV p (Finset.mem_sdiff.1 hp).2
          have hrOK2 : runsOK I2 (n + 1) := by
            intro s hs0 hsn hneg
            rcases le_or_lt (i + gw) s with hsr | hsr
            · rw [hvright s hsr] at hneg ⊢
              obtain ⟨ha, hb⟩ := hrOK s hs0 hsn hneg
              refine ⟨ha, ?_⟩
              intro t ht1 ht2
              rw [hvright t (by omega)]
              exact hb t ht1 ht2
            · rcases le_or_lt i s with hsm | hsm
              · have hm1 : zget I2 s = -1 := hnegS s hsm hsr hneg
                rw [hm1]
                refine ⟨by omega, ?_⟩
                intro t ht1 ht2
                rw [show t = s by omega, hm1]
                omega
              · rw [hvleft s hsm] at hneg ⊢
                rcases hcases with ⟨hn00, he⟩ | ⟨hn1, he, hold⟩
                · rw [he] at hneg ⊢
                  obtain ⟨ha, hb⟩ := hrOK s hs0 hsn hneg
                  have hruni : s - zget I s ≤ i := by
                    by_contra hc
                    exact hni (hb i (by omega) (by omega))
                  refine ⟨by omega, ?_⟩
                  intro t ht1 ht2
                  rw [hvleft t (by omega), he]
                  exact hb t ht1 ht2
                · by_cases hse : s = i - nacc
                  · have hv : zget I1 s = -nacc := by
                      rw [he, hse]
                      exact zget_zset_self I (i - nacc) (-nacc) (by omega)
                        (by rw [hlenI]; omega)
                    rw [hv]
                    refine ⟨by omega, ?_⟩
                    intro t ht1 ht2
                    rw [hvleft t (by omega)]
                    exact hI1pend t (by omega) (by omega)
                  · have hv : zget I1 s = zget I s := by
                      rw [he]
                      exact zget_zset_ne I (i - nacc) (-nacc) s hse
                    rw [hv] at hneg ⊢
                    obtain ⟨ha, hb⟩ := hrOK s hs0 hsn hneg
                    have hruni : s - zget I s ≤ i := by
                      by_contra hc
                      exact hni (hb i (by omega) (by omega))
                    refine ⟨by omega, ?_⟩
                    intro t ht1 ht2
                    rw [hvleft t (by omega)]
                    exact hI1keep t (by omega) (by omega) (hb t ht1 ht2)
          have hres := ih I2 V2m (i + gw) 0 (Md ∪ fiber V Mr g0)
            (Mr \ fiber V Mr g0) out hsome (by omega) (by omega) (by omega) hn0
            (by rw [hlen2, hlen1, hlenI]) (by rw [hlenV2m, hlenV])
            hT1app hT2new ?_ ?_ (by intro t ht1 ht2; omega) hrOK2
          · exact hres
          · rw [Finset.disjoint_union_left]
            exact ⟨Finset.disjoint_of_subset_right Finset.sdiff_subset hdis,
              disjoint_sdiff_self_right⟩
          · rw [Finset.union_assoc, Finset.union_sdiff_of_subset hfsub]
            exact hunion
    · -- pass end
      rw [if_neg hin] at hsome
      have hout : out = (I, V, i, nacc) := (Option.some.inj hsome).symm
      subst hout
      dsimp only []
      have hieq : i = n + 1 := by omega
      have hMre : Mr = ∅ := tiled_stop V I i (n + 1) Mr hT2 (by omega)
      rw [hMre, Finset.union_empty] at hunion
      rw [hieq, hunion] at hT1
      exact ⟨hieq, by omega, by omega, hT1,
        fun t ht1 ht2 => hpend t ht1 ht2, hrOK, hlenI, hlenV⟩

/-- Writing a combined-run head over an all-negative stretch preserves the
tiling, run honesty, and every slot's sign. -/
theorem markWrite_spec (V2 I : List ℤ) (n s v : ℤ)
    (hT : tiled V2 I 0 (n + 1) (Finset.Ico 0 (n + 1)))
    (hr : runsOK I (n + 1))
    (hs0 : 0 ≤ s) (hv : v < 0) (hrun : s - v ≤ n + 1)
    (hneg : ∀ t : ℤ, s ≤ t → t < s - v → zget I t < 0)
    (hlen : I.length = n.toNat + 1) (h0n : 0 ≤ n) :
    tiled V2 (zset I s v) 0 (n + 1) (Finset.Ico 0 (n + 1)) ∧
    runsOK (zset I s v) (n + 1) ∧
    (∀ t : ℤ, zget I t < 0 → zget (zset I s v) t < 0) ∧
    (zset I s v).length = I.length := by
  have hsn : s < n + 1 := by omega
  have hvs : zget (zset I s v) s = v :=
    zget_zset_self I s v hs0 (by rw [hlen]; omega)
  have hvo : ∀ t : ℤ, t ≠ s → zget (zset I s v) t = zget I t :=
    fun t ht => zget_zset_ne I s v t ht
  have hsgn : ∀ t : ℤ, zget I t < 0 → zget (zset I s v) t < 0 := by
    intro t ht
    by_cases hts : t = s
    · rw [hts, hvs]; omega
    · rw [hvo t hts]; exact ht
  refine ⟨?_, ?_, hsgn, zset_length I s v⟩
  · apply tiled_reframe V2 I V2 (zset I s v) (n + 1 - 0).toNat 0 (n + 1) _ rfl hT
      (fun p hp => (Finset.mem_Ico.1 hp).1)
    · intro t ht1 ht2
      by_cases hts : t = s
      · right
        refine ⟨?_, by rw [hts, hvs]; omega⟩
        rw [hts]
        exact hneg s le_rfl (by omega)
      · left; exact hvo t hts
    · intro p _; rfl
  · intro t ht0 htn hneg2
    by_cases hts : t = s
    · rw [hts, hvs] at hneg2 ⊢
      refine ⟨by omega, ?_⟩
      intro u hu1 hu2
      exact hsgn u (hneg u (by omega) (by omega))
    · rw [hvo t hts] at hneg2 ⊢
      obtain ⟨ha, hb⟩ := hr t ht0 htn hneg2
      exact ⟨ha, fun u hu1 hu2 => hsgn u (hb u hu1 hu2)⟩

/-- Partial correctness of the sequential doubling loop: a returned `V` maps
`[0, n]` into `[0, n]` injectively. -/
theorem doublingSeq_spec (F : ℕ) (n : ℤ) :
    ∀ fuel : ℕ, ∀ I V : List ℤ, ∀ h : ℤ, ∀ out : List ℤ × List ℤ,
      doublingSeq F n fuel I V h = some out →
      0 ≤ n → I.length = n.toNat + 1 → V.length = n.toNat + 1 →
      tiled V I 0 (n + 1) (Finset.Ico 0 (n + 1)) →
      runsOK I (n + 1) →
      out.2.length = n.toNat + 1 ∧
      (∀ p : ℤ, 0 ≤ p → p < n + 1 → 0 ≤ zget out.2 p ∧ zget out.2 p < n + 1) ∧
      (∀ p q : ℤ, 0 ≤ p → p < n + 1 → 0 ≤ q → q < n + 1 →
        zget out.2 p = zget out.2 q → p = q) := by
  intro fuel
  induction fuel with
  | zero => intro I V h out hsome; simp [doublingSeq] at hsome
  | succ fuel ih =>
    intro I V h out hsome h0n hlenI hlenV hT hr
    rw [doublingSeq] at hsome
    by_cases hdone : zget I 0 = -(n + 1)
    · rw [if_pos hdone] at hsome
      have hout : out = (I, V) := (Option.some.inj hsome).symm
      subst hout
      dsimp only []
      have hallneg : ∀ s : ℤ, 0 ≤ s → s < n + 1 → zget I s < 0 := by
        intro s hs1 hs2
        obtain ⟨ha, hb⟩ := hr 0 le_rfl (by omega) (by omega)
        exact hb s hs1 (by omega)
      have hfib1 := tiled_allneg_fiber V I (n + 1 - 0).toNat 0 (n + 1)
        (Finset.Ico 0 (n + 1)) rfl hT (fun p hp => (Finset.mem_Ico.1 hp).1)
        (fun s hs1 hs2 => hallneg s hs1 hs2)
      have hrange := tiled_val_range V I (n + 1 - 0).toNat 0 (n + 1)
        (Finset.Ico 0 (n + 1)) rfl hT
      refine ⟨hlenV, ?_, ?_⟩
      · intro p hp1 hp2
        exact hrange p (Finset.mem_Ico.2 ⟨hp1, hp2⟩)
      · intro p q hp1 hp2 hq1 hq2 hpq
        have hpr := hrange p (Finset.mem_Ico.2 ⟨hp1, hp2⟩)
        have h1 := hfib1 (zget V p) hpr.1 hpr.2
        obtain ⟨x, hx⟩ := Finset.card_eq_one.1 h1
        have hpm : p ∈ fiber V (Finset.Ico 0 (n + 1)) (zget V p) :=
          Finset.mem_filter.2 ⟨Finset.mem_Ico.2 ⟨hp1, hp2⟩, by simp⟩
        have hqm : q ∈ fiber V (Finset.Ico 0 (n + 1)) (zget V p) :=
          Finset.mem_filter.2 ⟨Finset.mem_Ico.2 ⟨hq1, hq2⟩, by simp [hpq]⟩
        rw [hx] at hpm hqm
        rw [Finset.mem_singleton.1 hpm, Finset.mem_singleton.1 hqm]
    · rw [if_neg hdone] at hsome
      split at hsome
      · exact absurd hsome (by simp)
      next I1 V1 iE nacc heq =>
        simp only [] at hsome
        generalize hI2g : (if nacc ≠ 0 then zset I1 (iE - nacc) (-nacc) else I1) = I2
          at hsome
        obtain ⟨hiE, hn1, hn2, hTs, hpendE, hrE, hlI1, hlV1⟩ :=
          sweepSeq_spec F n h F I V 0 0 ∅ (Finset.Ico 0 (n + 1))
            (I1, V1, iE, nacc) heq le_rfl le_rfl (by omega) h0n hlenI hlenV
            (tiled_of_empty V I 0 0 le_rfl) hT (Finset.disjoint_empty_left _)
            (Finset.empty_union _) (by intro t ht1 ht2; omega) hr
        dsimp only [] at hiE hn1 hn2 hTs hpendE hrE hlI1 hlV1
        have hstep : tiled V1 I2 0 (n + 1) (Finset.Ico 0 (n + 1)) ∧
            runsOK I2 (n + 1) ∧ I2.length = n.toNat + 1 := by
          by_cases hn00 : nacc = 0
          · have he : I2 = I1 := by rw [← hI2g, if_neg (not_not_intro hn00)]
            rw [he]
            exact ⟨hTs, hrE, hlI1⟩
          · have he : I2 = zset I1 (iE - nacc) (-nacc) := by
              rw [← hI2g, if_pos hn00]
            have hmw := markWrite_spec V1 I1 n (iE - nacc) (-nacc) hTs hrE
              (by omega) (by omega) (by omega)
              (fun t ht1 ht2 => hpendE t (by omega) (by omega)) hlI1 h0n
            rw [he]
            exact ⟨hmw.1, hmw.2.1, by rw [hmw.2.2.2, hlI1]⟩
        exact ih I2 V1 (h + h) out hsome h0n hstep.2.2 hlV1 hstep.1 hstep.2.1

/-! ### The parallel-mode sweep preserves the tiling -/

theorem sweepPar_spec (F : ℕ) (n h : ℤ) (V : List ℤ) :
    ∀ fuel : ℕ, ∀ I V2 : List ℤ, ∀ marks : List (ℤ × ℤ), ∀ i nacc : ℤ,
      ∀ Md Mr : Finset ℤ,
      ∀ out : List ℤ × List ℤ × List (ℤ × ℤ) × ℤ × ℤ,
      sweepPar F n h fuel I V V2 marks i nacc = some out →
      0 ≤ nacc → nacc ≤ i → i ≤ n + 1 → 0 ≤ n →
      I.length = n.toNat + 1 → V2.length = n.toNat + 1 →
      tiled V2 I 0 i Md →
      tiled V I i (n + 1) Mr →
      Disjoint Md Mr →
      Md ∪ Mr = Finset.Ico 0 (n + 1) →
      (∀ t : ℤ, i - nacc ≤ t → t < i → zget I t < 0) →
      runsOK I (n + 1) →
      (∀ m ∈ marks, 0 ≤ m.1 ∧ m.2 < 0 ∧ m.1 - m.2 ≤ i ∧
        ∀ t : ℤ, m.1 ≤ t → t < m.1 - m.2 → zget I t < 0) →
      (∀ p ∈ Mr, zget V2 p = zget V p) →
      out.2.2.2.1 = n + 1 ∧ 0 ≤ out.2.2.2.2 ∧ out.2.2.2.2 ≤ n + 1 ∧
      tiled out.2.1 out.1 0 (n + 1) (Finset.Ico 0 (n + 1)) ∧
      (∀ t : ℤ, out.2.2.2.1 - out.2.2.2.2 ≤ t → t < out.2.2.2.1 →
        zget out.1 t < 0) ∧
      runsOK out.1 (n + 1) ∧
      (∀ m ∈ out.2.2.1, 0 ≤ m.1 ∧ m.2 < 0 ∧ m.1 - m.2 ≤ n + 1 ∧
        ∀ t : ℤ, m.1 ≤ t → t < m.1 - m.2 → zget out.1 t < 0) ∧
      out.1.length = n.toNat + 1 ∧ out.2.1.length = n.toNat + 1 := by
  intro fuel
  induction fuel with
  | zero =>
    intro I V2 marks i nacc Md Mr out hsome
    simp [sweepPar] at hsome
  | succ fuel ih =>
    intro I V2 marks i nacc Md Mr out hsome hnacc0 hnacci hin1 hn0 hlenI hlenV2
      hT1 hT2 hdis hunion hpend hrOK hmarks hVV2
    have hMdpos : ∀ p ∈ Md, 0 ≤ p := by
      intro p hp
      have hm : p ∈ Finset.Ico (0 : ℤ) (n + 1) :=
        hunion ▸ Finset.mem_union_left _ hp
      exact (Finset.mem_Ico.1 hm).1
    have hMrmem : ∀ p ∈ Mr, 0 ≤ p ∧ p < n + 1 := by
      intro p hp
      have hm : p ∈ Finset.Ico (0 : ℤ) (n + 1) :=
        hunion ▸ Finset.mem_union_right _ hp
      exact Finset.mem_Ico.1 hm
    rw [sweepPar] at hsome
    by_cases hin : i < n + 1
    · rw [if_pos hin] at hsome
      by_cases hni : zget I i < 0
      · rw [if_pos hni] at hsome
        obtain ⟨hr1, hr2⟩ := hrOK i (by omega) hin hni
        obtain ⟨Mneg, hsubn, htn1, htn2⟩ := tiled_peel_negs V I (-zget I i).toNat
          i (n + 1) Mr hT2 (fun p hp => (hMrmem p hp).1) (by omega)
          (fun t ht1 ht2 => hr2 t ht1 (by omega))
        rw [show i + ((-zget I i).toNat : ℤ) = i - zget I i by omega] at htn1 htn2
        have htn1' : tiled V2 I i (i - zget I i) Mneg := by
          apply tiled_frame V I V2 I (i - zget I i - i).toNat i (i - zget I i)
            Mneg rfl htn1 (fun s _ _ => rfl)
          intro p hp
          exact hVV2 p (hsubn hp)
        exact ih I V2 marks (i - zget I i) (nacc - zget I i) (Md ∪ Mneg)
          (Mr \ Mneg) out hsome (by omega) (by omega) hr1 hn0 hlenI hlenV2
          (tiled_append V2 I (i - 0).toNat 0 i (i - zget I i) Md Mneg rfl
            (by omega) (by omega) hT1 htn1'
            (Finset.disjoint_of_subset_right hsubn hdis))
          htn2
          (by rw [Finset.disjoint_union_left]
              exact ⟨Finset.disjoint_of_subset_right Finset.sdiff_subset hdis,
                disjoint_sdiff_self_right⟩)
          (by rw [Finset.union_assoc, Finset.union_sdiff_of_subset hsubn]
              exact hunion)
          (by intro t ht1 ht2
              rcases lt_or_le t i with hti | hti
              · exact hpend t (by omega) hti
              · exact hr2 t hti ht2)
          hrOK
          (fun m hm => by
            obtain ⟨h1, h2, h3, h4⟩ := hmarks m hm
            exact ⟨h1, h2, by omega, h4⟩)
          (fun p hp => hVV2 p (Finset.sdiff_subset hp))
      · rw [if_neg hni] at hsome
        simp only [] at hsome
        generalize hmg : (if nacc ≠ 0 then marks ++ [(i - nacc, -nacc)] else marks)
          = marks1 at hsome
        generalize hgw : zget V (zget I i) + 1 - i = gw at hsome
        obtain ⟨g0, hg01, hg02, hcard, hlist0, htail⟩ :=
          tiled_elim V I i (n + 1) Mr hT2 (by omega)
        rcases hlist0 with ⟨hl1, hl2⟩ | ⟨_, hnegg⟩
        swap
        · omega
        have hIiF : zget I i ∈ fiber V Mr g0 := hl1 i le_rfl hg01
        have hVIi : zget V (zget I i) = g0 := by
          have := (Finset.mem_filter.1 hIiF).2
          simpa using this
        have hgwv : gw = g0 + 1 - i := by rw [← hgw, hVIi]
        have hfsub : fiber V Mr g0 ⊆ Mr := Finset.filter_subset _ _
        have hlst : listing I i (i + gw) (fiber V Mr g0) := by
          refine ⟨?_, ?_, ?_⟩
          · intro s hs1 hs2
            exact hl1 s hs1 (by omega)
          · intro p hp
            obtain ⟨s, hs1, hs2, hs3⟩ := hl2 p hp
            exact ⟨s, hs1, by omega, hs3⟩
          · rw [hcard]
            congr 1
            omega
        split at hsome
        · exact absurd hsome (by simp)
        next I2 V22 heq =>
          obtain ⟨htS, hfI, hfV, hlen2, hlenV22, hnegS⟩ :=
            split_spec false V F I V2 i gw h (fiber V Mr g0) (I2, V22) heq
              (by omega) (by omega) (by omega) (by rw [hlenV2, hlenI]) hlst
              (fun p hp => by
                have := hMrmem p (hfsub hp)
                omega)
          have hvleft : ∀ t : ℤ, t < i → zget I2 t = zget I t :=
            fun t ht => hfI t (Or.inl ht)
          have hvright : ∀ t : ℤ, i + gw ≤ t → zget I2 t = zget I t :=
            fun t ht => hfI t (Or.inr ht)
          have hT1new : tiled V22 I2 0 i Md := by
            apply tiled_frame V2 I V22 I2 (i - 0).toNat 0 i Md rfl hT1
            · intro s hs1 hs2
              exact hvleft s hs2
            · intro p hp
              exact hfV p (fun hc => Finset.disjoint_left.1 hdis hp (hfsub hc))
          have hT1app : tiled V22 I2 0 (i + gw) (Md ∪ fiber V Mr g0) :=
            tiled_append V22 I2 (i - 0).toNat 0 i (i + gw) Md (fiber V Mr g0) rfl
              (by omega) (by omega) hT1new htS
              (Finset.disjoint_of_subset_right hfsub hdis)
          have hT2new : tiled V I2 (i + gw) (n + 1) (Mr \ fiber V Mr g0) := by
            rw [show i + gw = g0 + 1 by omega]
            apply tiled_frame V I V I2 (n + 1 - (g0 + 1)).toNat (g0 + 1)
              (n + 1) (Mr \ fiber V Mr g0) rfl htail
            · intro s hs1 hs2
              exact hvright s (by omega)
            · intro p _
              rfl
          have hrOK2 : runsOK I2 (n + 1) := by
            intro s hs0 hsn hneg
            rcases le_or_lt (i + gw) s with hsr | hsr
            · rw [hvright s hsr] at hneg ⊢
              obtain ⟨ha, hb⟩ := hrOK s hs0 hsn hneg
              refine ⟨ha, ?_⟩
              intro t ht1 ht2
              rw [hvright t (by omega)]
              exact hb t ht1 ht2
            · rcases le_or_lt i s with hsm | hsm
              · have hm1 : zget I2 s = -1 := hnegS s hsm hsr hneg
                rw [hm1]
                refine ⟨by omega, ?_⟩
                intro t ht1 ht2
                rw [show t = s by omega, hm1]
                omega
              · rw [hvleft s hsm] at hneg ⊢
                obtain ⟨ha, hb⟩ := hrOK s hs0 hsn hneg
                have hruni : s - zget I s ≤ i := by
                  by_contra hc
                  exact hni (hb i (by omega) (by omega))
                refine ⟨by omega, ?_⟩
                intro t ht1 ht2
                rw [hvleft t (by omega)]
                exact hb t ht1 ht2
          have hmarks1 : ∀ m ∈ marks1, 0 ≤ m.1 ∧ m.2 < 0 ∧ m.1 - m.2 ≤ i + gw ∧
              ∀ t : ℤ, m.1 ≤ t → t < m.1 - m.2 → zget I2 t < 0 := by
            intro m hm
            have hold : ∀ m' ∈ marks, 0 ≤ m'.1 ∧ m'.2 < 0 ∧ m'.1 - m'.2 ≤ i + gw ∧
                ∀ t : ℤ, m'.1 ≤ t → t < m'.1 - m'.2 → zget I2 t < 0 := by
              intro m' hm'
              obtain ⟨h1, h2, h3, h4⟩ := hmarks m' hm'
              refine ⟨h1, h2, by omega, ?_⟩
              intro t ht1 ht2
              rw [hvleft t (by omega)]
              exact h4 t ht1 ht2
            by_cases hn00 : nacc = 0
            · rw [← hmg, if_neg (not_not_intro hn00)] at hm
              exact hold m hm
            · rw [← hmg, if_pos hn00] at hm
              rcases List.mem_append.1 hm with hmo | hmn
              · exact hold m hmo
              · have hme : m = (i - nacc, -nacc) := by simpa using hmn
                rw [hme]
                refine ⟨by omega, by omega, by omega, ?_⟩
                intro t ht1 ht2
                dsimp only [] at ht1 ht2
                rw [hvleft t (by omega)]
                exact hpend t (by omega) (by omega)
          exact ih I2 V22 marks1 (i + gw) 0 (Md ∪ fiber V Mr g0)
            (Mr \ fiber V Mr g0) out hsome (by omega) (by omega) (by omega) hn0
            (by rw [hlen2, hlenI]) (by rw [hlenV22, hlenV2])
            hT1app hT2new
            (by rw [Finset.disjoint_union_left]
                exact ⟨Finset.disjoint_of_subset_right Finset.sdiff_subset hdis,
                  disjoint_sdiff_self_right⟩)
            (by rw [Finset.union_assoc, Finset.union_sdiff_of_subset hfsub]
                exact hunion)
            (by intro t ht1 ht2; omega) hrOK2 hmarks1
            (fun p hp => by
              rw [hfV p (Finset.mem_sdiff.1 hp).2]
              exact hVV2 p (Finset.mem_sdiff.1 hp).1)
    · rw [if_neg hin] at hsome
      have hout : out = (I, V2, marks, i, nacc) := (Option.some.inj hsome).symm
      subst hout
      dsimp only []
      have hieq : i = n + 1 := by omega
      have hMre : Mr = ∅ := tiled_stop V I i (n + 1) Mr hT2 (by omega)
      rw [hMre, Finset.union_empty] at hunion
      rw [hieq, hunion] at hT1
      exact ⟨hieq, by omega, by omega, hT1,
        fun t ht1 ht2 => hpend t ht1 ht2, hrOK,
        fun m hm => by
          obtain ⟨h1, h2, h3, h4⟩ := hmarks m hm
          exact ⟨h1, h2, by omega, h4⟩,
        hlenI, hlenV2⟩

/-- Applying a log of honest deferred run marks preserves the tiling and run
honesty. -/
theorem foldMarks_spec (V2 : List ℤ) (n : ℤ) :
    ∀ marks : List (ℤ × ℤ), ∀ I : List ℤ,
      tiled V2 I 0 (n + 1) (Finset.Ico 0 (n + 1)) →
      runsOK I (n + 1) →
      I.length = n.toNat + 1 → 0 ≤ n →
      (∀ m ∈ marks, 0 ≤ m.1 ∧ m.2 < 0 ∧ m.1 - m.2 ≤ n + 1 ∧
        ∀ t : ℤ, m.1 ≤ t → t < m.1 - m.2 → zget I t < 0) →
      tiled V2 (marks.foldl (fun I m => zset I m.1 m.2) I) 0 (n + 1)
          (Finset.Ico 0 (n + 1)) ∧
      runsOK (marks.foldl (fun I m => zset I m.1 m.2) I) (n + 1) ∧
      (marks.foldl (fun I m => zset I m.1 m.2) I).length = n.toNat + 1 ∧
      (∀ t : ℤ, zget I t < 0 →
        zget (marks.foldl (fun I m => zset I m.1 m.2) I) t < 0) := by
  intro marks
  induction marks with
  | nil =>
    intro I hT hr hlen h0n _
    exact ⟨hT, hr, hlen, fun t ht => ht⟩
  | cons m ms ih =>
    intro I hT hr hlen h0n hm
    obtain ⟨h1, h2, h3, h4⟩ := hm m (List.mem_cons_self _ _)
    obtain ⟨hw1, hw2, hw3, hw4⟩ := markWrite_spec V2 I n m.1 m.2 hT hr h1 h2 h3 h4
      hlen h0n
    have hrest := ih (zset I m.1 m.2) hw1 hw2 (by rw [hw4, hlen]) h0n
      (fun m' hm' => by
        obtain ⟨g1, g2, g3, g4⟩ := hm m' (List.mem_cons_of_mem _ hm')
        exact ⟨g1, g2, g3, fun t ht1 ht2 => hw3 t (g4 t ht1 ht2)⟩)
    exact ⟨hrest.1, hrest.2.1, hrest.2.2.1,
      fun t ht => hrest.2.2.2 t (hw3 t ht)⟩

/-- Partial correctness of the parallel-mode doubling loop (always called with
the group array aliased into both `V` slots): a returned `V` maps `[0, n]`
into `[0, n]` injectively. -/
theorem doublingPar_spec (F : ℕ) (n : ℤ) :
    ∀ fuel : ℕ, ∀ I V : List ℤ, ∀ h : ℤ, ∀ out : List ℤ × List ℤ,
      doublingPar F n fuel I V V h = some out →
      0 ≤ n → I.length = n.toNat + 1 → V.length = n.toNat + 1 →
      tiled V I 0 (n + 1) (Finset.Ico 0 (n + 1)) →
      runsOK I (n + 1) →
      out.2.length = n.toNat + 1 ∧
      (∀ p : ℤ, 0 ≤ p → p < n + 1 → 0 ≤ zget out.2 p ∧ zget out.2 p < n + 1) ∧
      (∀ p q : ℤ, 0 ≤ p → p < n + 1 → 0 ≤ q → q < n + 1 →
        zget out.2 p = zget out.2 q → p = q) := by
  intro fuel
  induction fuel with
  | zero => intro I V h out hsome; simp [doublingPar] at hsome
  | succ fuel ih =>
    intro I V h out hsome h0n hlenI hlenV hT hr
    rw [doublingPar] at hsome
    by_cases hdone : zget I 0 = -(n + 1)
    · rw [if_pos hdone] at hsome
      have hout : out = (I, V) := (Option.some.inj hsome).symm
      subst hout
      dsimp only []
      have hallneg : ∀ s : ℤ, 0 ≤ s → s < n + 1 → zget I s < 0 := by
        intro s hs1 hs2
        obtain ⟨ha, hb⟩ := hr 0 le_rfl (by omega) (by omega)
        exact hb s hs1 (by omega)
      have hfib1 := tiled_allneg_fiber V I (n + 1 - 0).toNat 0 (n + 1)
        (Finset.Ico 0 (n + 1)) rfl hT (fun p hp => (Finset.mem_Ico.1 hp).1)
        (fun s hs1 hs2 => hallneg s hs1 hs2)
      have hrange := tiled_val_range V I (n + 1 - 0).toNat 0 (n + 1)
        (Finset.Ico 0 (n + 1)) rfl hT
      refine ⟨hlenV, ?_, ?_⟩
      · intro p hp1 hp2
        exact hrange p (Finset.mem_Ico.2 ⟨hp1, hp2⟩)
      · intro p q hp1 hp2 hq1 hq2 hpq
        have hpr := hrange p (Finset.mem_Ico.2 ⟨hp1, hp2⟩)
        have h1 := hfib1 (zget V p) hpr.1 hpr.2
        obtain ⟨x, hx⟩ := Finset.card_eq_one.1 h1
        have hpm : p ∈ fiber V (Finset.Ico 0 (n + 1)) (zget V p) :=
          Finset.mem_filter.2 ⟨Finset.mem_Ico.2 ⟨hp1, hp2⟩, by simp⟩
        have hqm : q ∈ fiber V (Finset.Ico 0 (n + 1)) (zget V p) :=
          Finset.mem_filter.2 ⟨Finset.mem_Ico.2 ⟨hq1, hq2⟩, by simp [hpq]⟩
        rw [hx] at hpm hqm
        rw [Finset.mem_singleton.1 hpm, Finset.mem_singleton.1 hqm]
    · rw [if_neg hdone] at hsome
      split at hsome
      · exact absurd hsome (by simp)
      next I1 V21 marks iE nacc heq =>
        simp only [] at hsome
        generalize hI2g : marks.foldl (fun I m => zset I m.1 m.2) I1 = I2 at hsome
        generalize hI3g : (if nacc ≠ 0 then zset I2 (iE - nacc) (-nacc) else I2)
          = I3 at hsome
        obtain ⟨hiE, hn1, hn2, hTs, hpendE, hrE, hmarksE, hlI1, hlV21⟩ :=
          sweepPar_spec F n h V F I V [] 0 0 ∅ (Finset.Ico 0 (n + 1))
            (I1, V21, marks, iE, nacc) heq le_rfl le_rfl (by omega) h0n
            hlenI hlenV (tiled_of_empty V I 0 0 le_rfl) hT
            (Finset.disjoint_empty_left _) (Finset.empty_union _)
            (by intro t ht1 ht2; omega) hr (by intro m hm; simp at hm)
            (fun p _ => rfl)
        dsimp only [] at hiE hn1 hn2 hTs hpendE hrE hmarksE hlI1 hlV21
        obtain ⟨hf1, hf2, hf3, hf4⟩ := foldMarks_spec V21 n marks I1 hTs hrE
          hlI1 h0n hmarksE
        rw [hI2g] at hf1 hf2 hf3 hf4
        have hstep : tiled V21 I3 0 (n + 1) (Finset.Ico 0 (n + 1)) ∧
            runsOK I3 (n + 1) ∧ I3.length = n.toNat + 1 := by
          by_cases hn00 : nacc = 0
          · have he : I3 = I2 := by rw [← hI3g, if_neg (not_not_intro hn00)]
            rw [he]
            exact ⟨hf1, hf2, hf3⟩
          · have he : I3 = zset I2 (iE - nacc) (-nacc) := by
              rw [← hI3g, if_pos hn00]
            have hmw := markWrite_spec V21 I2 n (iE - nacc) (-nacc) hf1 hf2
              (by omega) (by omega) (by omega)
              (fun t ht1 ht2 => hf4 t (hpendE t (by omega) (by omega))) hf3 h0n
            rw [he]
            exact ⟨hmw.1, hmw.2.1, by rw [hmw.2.2.2, hf3]⟩
        exact ih I3 V21 (h + h) out hsome h0n hstep.2.2 hlV21 hstep.1 hstep.2.1

/-! ### Counting-sort arithmetic for `qsufInit` -/

/-- Number of occurrences of byte `c`. -/
def cnt : List ℕ → ℕ → ℕ
  | [], _ => 0
  | d :: l, c => cnt l c + if d = c then 1 else 0

/-- Number of occurrences of bytes smaller than `c`. -/
def cumB : List ℕ → ℕ → ℕ
  | [], _ => 0
  | d :: l, c => cumB l c + if d < c then 1 else 0

theorem cumB_zero (l : List ℕ) : cumB l 0 = 0 := by
  induction l with
  | nil => rfl
  | cons d l ih => simp [cumB, ih]

theorem cumB_succ (l : List ℕ) (c : ℕ) : cumB l (c + 1) = cumB l c + cnt l c := by
  induction l with
  | nil => rfl
  | cons d l ih =>
    simp only [cumB, cnt, ih]
    by_cases h1 : d < c
    · rw [if_pos h1, if_pos (by omega), if_neg (by omega)]
      omega
    · by_cases h2 : d = c
      · rw [if_pos (by omega), if_neg h1, if_pos h2]
        omega
      · rw [if_neg (by omega), if_neg h1, if_neg h2]
        omega

theorem cumB_mono (l : List ℕ) (c c' : ℕ) (h : c ≤ c') : cumB l c ≤ cumB l c' := by
  induction l with
  | nil => exact le_rfl
  | cons d l ih =>
    simp only [cumB]
    have : (if d < c then 1 else 0) ≤ if d < c' then 1 else 0 := by
      by_cases hd : d < c
      · rw [if_pos hd, if_pos (by omega)]
      · rw [if_neg hd]; omega
    omega

theorem cumB_all (l : List ℕ) (m : ℕ) (h : ∀ d ∈ l, d < m) :
    cumB l m = l.length := by
  induction l with
  | nil => rfl
  | cons d l ih =>
    simp only [cumB, List.length_cons]
    rw [if_pos (h d (List.mem_cons_self _ _)),
      ih (fun d' hd' => h d' (List.mem_cons_of_mem _ hd'))]

theorem cnt_cons_self (d : ℕ) (l : List ℕ) : cnt (d :: l) d = cnt l d + 1 := by
  simp [cnt]

theorem cnt_cons_ne (d c : ℕ) (l : List ℕ) (h : d ≠ c) : cnt (d :: l) c = cnt l c := by
  simp [cnt, h]

theorem cnt_append (l1 l2 : List ℕ) (c : ℕ) :
    cnt (l1 ++ l2) c = cnt l1 c + cnt l2 c := by
  induction l1 with
  | nil => simp [cnt]
  | cons d l ih =>
    simp only [List.cons_append, cnt, List.append_eq]
    rw [ih]
    omega

theorem cnt_pos_of_mem (l : List ℕ) (a : ℕ) (h : a ∈ l) : 1 ≤ cnt l a := by
  induction l with
  | nil => simp at h
  | cons d l ih =>
    rcases List.mem_cons.1 h with h1 | h1
    · simp only [cnt]
      rw [if_pos h1.symm]
      omega
    · have := ih h1
      simp only [cnt]
      omega

theorem getD_mem (l : List ℕ) : ∀ i : ℕ, i < l.length → l.getD i 0 ∈ l := by
  induction l with
  | nil => intro i hi; simp at hi
  | cons d l ih =>
    intro i hi
    cases i with
    | zero => exact List.mem_cons_self _ _
    | succ i => exact List.mem_cons_of_mem _ (ih i (by simpa using hi))

theorem getD_replicate (k : ℕ) : ∀ c : ℕ, (List.replicate k (0 : ℤ)).getD c 0 = 0 := by
  induction k with
  | zero => intro c; rfl
  | succ k ih =>
    intro c
    cases c with
    | zero => rfl
    | succ c => exact ih c

theorem getD_take (l : List ℤ) : ∀ k c : ℕ, c < k → (l.take k).getD c 0 = l.getD c 0 := by
  induction l with
  | nil => intro k c _; simp
  | cons d l ih =>
    intro k c hck
    cases k with
    | zero => omega
    | succ k =>
      cases c with
      | zero => rfl
      | succ c => exact ih k c (by omega)

theorem getD_append_left (l1 l2 : List ℕ) :
    ∀ i : ℕ, i < l1.length → (l1 ++ l2).getD i 0 = l1.getD i 0 := by
  induction l1 with
  | nil => intro i hi; simp at hi
  | cons d l ih =>
    intro i hi
    cases i with
    | zero => rfl
    | succ i => exact ih i (by simpa using hi)

theorem getD_append_cons (l1 : List ℕ) (d : ℕ) (l2 : List ℕ) :
    (l1 ++ d :: l2).getD l1.length 0 = d := by
  induction l1 with
  | nil => rfl
  | cons e l ih => simpa using ih

theorem take_append_cons (l1 : List ℕ) (d : ℕ) (l2 : List ℕ) :
    (l1 ++ d :: l2).take (l1.length + 1) = l1 ++ [d] := by
  induction l1 with
  | nil => rfl
  | cons e l ih => simpa using ih

theorem take_succ_getD (l : List ℕ) :
    ∀ idx : ℕ, idx < l.length → l.take (idx + 1) = l.take idx ++ [l.getD idx 0] := by
  induction l with
  | nil => intro idx h; simp at h
  | cons d l ih =>
    intro idx h
    cases idx with
    | zero => rfl
    | succ idx =>
      simp only [List.take, List.getD, List.getElem?_cons_succ, List.cons_append]
      congr 1
      have := ih idx (by simpa using h)
      simpa [List.getD] using this

theorem cnt_take_le (l : List ℕ) (m c : ℕ) : cnt (l.take m) c ≤ cnt l c := by
  conv_rhs => rw [← List.take_append_drop m l]
  rw [cnt_append]
  omega

theorem cnt_take_mono (l : List ℕ) (m m' c : ℕ) (h : m ≤ m') :
    cnt (l.take m) c ≤ cnt (l.take m') c := by
  rcases le_or_lt l.length m with hm | hm
  · rw [List.take_of_length_le hm, List.take_of_length_le (by omega)]
  · rw [show m' = m + (m' - m) by omega, List.take_add, cnt_append]
    omega

theorem cnt_take_succ_self (l : List ℕ) (idx : ℕ) (h : idx < l.length) :
    cnt (l.take (idx + 1)) (l.getD idx 0) = cnt (l.take idx) (l.getD idx 0) + 1 := by
  rw [take_succ_getD l idx h, cnt_append]
  simp [cnt]

theorem cnt_take_ge_one (l : List ℕ) (idx : ℕ) (h : idx < l.length) :
    1 ≤ cnt (l.take (idx + 1)) (l.getD idx 0) := by
  rw [cnt_take_succ_self l idx h]
  omega

theorem cnt_take_strict (l : List ℕ) (idx idx' c : ℕ) (h1 : idx < idx')
    (h2 : idx' < l.length) (h3 : l.getD idx' 0 = c) :
    cnt (l.take (idx + 1)) c < cnt (l.take (idx' + 1)) c := by
  have hs : cnt (l.take (idx' + 1)) c = cnt (l.take idx') c + 1 := by
    rw [← h3]
    exact cnt_take_succ_self l idx' h2
  have hm : cnt (l.take (idx + 1)) c ≤ cnt (l.take idx') c :=
    cnt_take_mono l (idx + 1) idx' c (by omega)
  omega

theorem bucket_cover (l : List ℕ) :
    ∀ m : ℕ, ∀ s : ℕ, 1 ≤ s → s ≤ cumB l m →
      ∃ c : ℕ, c < m ∧ cumB l c + 1 ≤ s ∧ s ≤ cumB l c + cnt l c := by
  intro m
  induction m with
  | zero => intro s h1 h2; rw [cumB_zero] at h2; omega
  | succ m ih =>
    intro s h1 h2
    rcases le_or_lt s (cumB l m) with hs | hs
    · obtain ⟨c, hc1, hc2, hc3⟩ := ih s h1 hs
      exact ⟨c, by omega, hc2, hc3⟩
    · rw [cumB_succ] at h2
      exact ⟨m, by omega, by omega, by omega⟩

/-- The byte-count fold of `qsufInit`. -/
theorem countFold_spec :
    ∀ (l : List ℕ) (B : List ℤ), (∀ d ∈ l, d < 256) → B.length = 256 →
      (l.foldl (fun B c => B.set c (B.getD c 0 + 1)) B).length = 256 ∧
      (∀ c : ℕ, c < 256 →
        (l.foldl (fun B c => B.set c (B.getD c 0 + 1)) B).getD c 0
          = B.getD c 0 + (cnt l c : ℤ)) := by
  intro l
  induction l with
  | nil =>
    intro B _ hB
    exact ⟨hB, fun c _ => by simp [cnt]⟩
  | cons d l ih =>
    intro B hd hB
    simp only [List.foldl_cons]
    obtain ⟨ih1, ih2⟩ := ih (B.set d (B.getD d 0 + 1))
      (fun d' hd' => hd d' (List.mem_cons_of_mem _ hd'))
      (by rw [List.length_set, hB])
    refine ⟨ih1, ?_⟩
    intro c hc
    rw [ih2 c hc]
    by_cases hdc : d = c
    · subst hdc
      rw [getD_set_self B d _ (by rw [hB]; exact hd d (List.mem_cons_self _ _))]
      rw [cnt_cons_self]
      push_cast
      ring
    · rw [getD_set_ne B d c _ hdc]
      rw [cnt_cons_ne d c l hdc]

/-- The in-place prefix-sum fold of `qsufInit`. -/
theorem prefixFold_spec (obuf : List ℕ) :
    ∀ m : ℕ, m ≤ 255 → ∀ B : List ℤ, B.length = 256 →
      (∀ c : ℕ, c < 256 → B.getD c 0 = (cnt obuf c : ℤ)) →
      ((List.range m).foldl
        (fun B t => B.set (t + 1) (B.getD (t + 1) 0 + B.getD t 0)) B).length = 256 ∧
      (∀ c : ℕ, c ≤ m →
        ((List.range m).foldl
          (fun B t => B.set (t + 1) (B.getD (t + 1) 0 + B.getD t 0)) B).getD c 0
          = (cumB obuf (c + 1) : ℤ)) ∧
      (∀ c : ℕ, m < c → c < 256 →
        ((List.range m).foldl
          (fun B t => B.set (t + 1) (B.getD (t + 1) 0 + B.getD t 0)) B).getD c 0
          = (cnt obuf c : ℤ)) := by
  intro m
  induction m with
  | zero =>
    intro _ B hB hv
    simp only [List.range_zero, List.foldl_nil]
    refine ⟨hB, ?_, fun c _ hc => hv c hc⟩
    intro c hc
    have hc0 : c = 0 := by omega
    subst hc0
    rw [hv 0 (by omega)]
    rw [show cumB obuf 1 = cnt obuf 0 by
      rw [show (1 : ℕ) = 0 + 1 by rfl, cumB_succ, cumB_zero]
      omega]
  | succ m ih =>
    intro hm B hB hv
    rw [List.range_succ, List.foldl_append, List.foldl_cons, List.foldl_nil]
    obtain ⟨ih1, ih2, ih3⟩ := ih (by omega) B hB hv
    refine ⟨by rw [List.length_set, ih1], ?_, ?_⟩
    · intro c hc
      rcases Nat.lt_or_ge c (m + 1) with hcm | hcm
      · rw [getD_set_ne _ (m + 1) c _ (by omega)]
        exact ih2 c (by omega)
      · have hce : c = m + 1 := by omega
        subst hce
        rw [getD_set_self _ (m + 1) _ (by rw [ih1]; omega)]
        rw [ih2 m le_rfl, ih3 (m + 1) (by omega) (by omega)]
        rw [show cumB obuf (m + 1 + 1) = cumB obuf (m + 1) + cnt obuf (m + 1) from
          cumB_succ obuf (m + 1)]
        push_cast
        ring
    · intro c hc1 hc2
      rw [getD_set_ne _ (m + 1) c _ (by omega)]
      exact ih3 c (by omega) hc2

/-- The shifted bucket-start array `0 :: buckets.take 255`. -/
theorem buckets3_spec (B2 : List ℤ) (obuf : List ℕ) (hlen : B2.length = 256)
    (hB2 : ∀ c : ℕ, c < 256 → B2.getD c 0 = (cumB obuf (c + 1) : ℤ)) :
    ((0 : ℤ) :: B2.take 255).length = 256 ∧
    (∀ c : ℕ, c < 256 → ((0 : ℤ) :: B2.take 255).getD c 0 = (cumB obuf c : ℤ)) := by
  constructor
  · simp [hlen]
  · intro c hc
    cases c with
    | zero =>
      simp [cumB_zero]
    | succ c =>
      have hstep : ((0 : ℤ) :: B2.take 255).getD (c + 1) 0 = (B2.take 255).getD c 0 :=
        rfl
      rw [hstep, getD_take B2 255 c (by omega), hB2 c (by omega)]

/-- The group-number fold of `qsufInit`: `V[i] = B4[obuf[i]]`. -/
theorem vFold_spec (obuf : List ℕ) (B4 : List ℤ) :
    ∀ rest pre : List ℕ, ∀ Vacc : List ℤ,
      obuf = pre ++ rest →
      Vacc.length = obuf.length + 1 →
      (∀ idx : ℕ, idx < pre.length →
        zget Vacc idx = B4.getD (obuf.getD idx 0) 0) →
      ((List.enumFrom pre.length rest).foldl
        (fun V ic => zset V (ic.1 : ℤ) (B4.getD ic.2 0)) Vacc).length
        = obuf.length + 1 ∧
      (∀ idx : ℕ, idx < obuf.length →
        zget ((List.enumFrom pre.length rest).foldl
          (fun V ic => zset V (ic.1 : ℤ) (B4.getD ic.2 0)) Vacc) idx
          = B4.getD (obuf.getD idx 0) 0) := by
  intro rest
  induction rest with
  | nil =>
    intro pre Vacc hob hlen hinv
    simp only [List.enumFrom, List.foldl_nil]
    refine ⟨hlen, ?_⟩
    intro idx hidx
    apply hinv
    have hpl : pre.length = obuf.length := by rw [hob, List.append_nil]
    omega
  | cons c rest' ih =>
    intro pre Vacc hob hlen hinv
    simp only [List.enumFrom, List.foldl_cons]
    have hoblen : pre.length < obuf.length := by
      rw [hob, List.length_append, List.length_cons]
      omega
    have hres := ih (pre ++ [c]) (zset Vacc (pre.length : ℤ) (B4.getD c 0))
      (by rw [hob, List.append_assoc, List.singleton_append])
      (by rw [zset_length, hlen])
      ?_
    · rw [List.length_append, List.length_singleton] at hres
      exact hres
    · intro idx hidx
      rw [List.length_append, List.length_singleton] at hidx
      rcases Nat.lt_or_ge idx pre.length with hip | hip
      · rw [zget_zset_ne Vacc (pre.length : ℤ) _ (idx : ℤ)
          (by intro hc; exact absurd (Int.natCast_inj.1 hc) (by omega))]
        exact hinv idx hip
      · have hie : idx = pre.length := by omega
        rw [hie]
        rw [zget_zset_self Vacc (pre.length : ℤ) _ (Int.natCast_nonneg _) (by omega)]
        rw [hob, getD_append_cons]

/-- The singleton-bucket marking fold of `qsufInit`. -/
theorem markFold_spec (obuf : List ℕ) (B4 : List ℤ)
    (hby : ∀ d ∈ obuf, d < 256)
    (hB4 : ∀ c : ℕ, c < 256 → B4.getD c 0 = ((cumB obuf c + cnt obuf c : ℕ) : ℤ)) :
    ∀ m : ℕ, m ≤ 255 → ∀ I : List ℤ, I.length = obuf.length + 1 →
      ((List.range m).foldl (fun I t => if B4.getD (t + 1) 0 = B4.getD t 0 + 1
        then zset I (B4.getD (t + 1) 0) (-1) else I) I).length = obuf.length + 1 ∧
      (∀ c : ℕ, 1 ≤ c → c ≤ m → cnt obuf c = 1 →
        zget ((List.range m).foldl (fun I t => if B4.getD (t + 1) 0 = B4.getD t 0 + 1
          then zset I (B4.getD (t + 1) 0) (-1) else I) I) ((cumB obuf c : ℤ) + 1)
          = -1) ∧
      (∀ s : ℤ, (∀ c : ℕ, 1 ≤ c → c ≤ m → cnt obuf c = 1 →
          s ≠ (cumB obuf c : ℤ) + 1) →
        zget ((List.range m).foldl (fun I t => if B4.getD (t + 1) 0 = B4.getD t 0 + 1
          then zset I (B4.getD (t + 1) 0) (-1) else I) I) s = zget I s) := by
  intro m
  induction m with
  | zero =>
    intro _ I hlen
    exact ⟨hlen, fun c hc1 hc2 _ => absurd hc2 (by omega), fun s _ => rfl⟩
  | succ m ih =>
    intro hm I hlen
    rw [List.range_succ, List.foldl_append, List.foldl_cons, List.foldl_nil]
    obtain ⟨ih1, ih2, ih3⟩ := ih (by omega) I hlen
    have hcond : (B4.getD (m + 1) 0 = B4.getD m 0 + 1) ↔ cnt obuf (m + 1) = 1 := by
      rw [hB4 (m + 1) (by omega), hB4 m (by omega),
        show cumB obuf (m + 1) = cumB obuf m + cnt obuf m from cumB_succ obuf m]
      constructor
      · intro hh
        have := Int.natCast_inj.1 (by push_cast at hh ⊢; omega :
          ((cumB obuf m + cnt obuf m + cnt obuf (m + 1) : ℕ) : ℤ)
            = ((cumB obuf m + cnt obuf m + 1 : ℕ) : ℤ))
        omega
      · intro hh
        rw [hh]
        push_cast
        ring
    have hslotbound : cumB obuf (m + 1) + cnt obuf (m + 1) ≤ obuf.length := by
      have h1 : cumB obuf (m + 1) + cnt obuf (m + 1) = cumB obuf (m + 2) :=
        (cumB_succ obuf (m + 1)).symm
      have h2 : cumB obuf (m + 2) ≤ cumB obuf 256 := cumB_mono obuf (m + 2) 256 (by omega)
      rw [cumB_all obuf 256 hby] at h2
      omega
    by_cases hc1 : cnt obuf (m + 1) = 1
    · rw [if_pos (hcond.2 hc1)]
      have hslot : B4.getD (m + 1) 0 = (cumB obuf (m + 1) : ℤ) + 1 := by
        rw [hB4 (m + 1) (by omega), hc1]
        push_cast
        ring
      have hsb : ((cumB obuf (m + 1) : ℤ) + 1).toNat < obuf.length + 1 := by omega
      refine ⟨by rw [hslot, zset_length, ih1], ?_, ?_⟩
      · intro c hcc1 hcc2 hcc3
        by_cases hcol : (cumB obuf c : ℤ) + 1 = (cumB obuf (m + 1) : ℤ) + 1
        · rw [hslot, hcol]
          exact zget_zset_self _ _ _ (by positivity) (by rw [ih1]; exact hsb)
        · rw [hslot, zget_zset_ne _ _ _ _ hcol]
          exact ih2 c hcc1 (by
            rcases Nat.lt_or_ge c (m + 1) with hh | hh
            · omega
            · exact absurd (by omega : c = m + 1) (fun hce => hcol (by rw [hce]))) hcc3
      · intro s hs
        rw [hslot, zget_zset_ne _ _ _ _ (hs (m + 1) (by omega) le_rfl hc1)]
        exact ih3 s (fun c hcc1 hcc2 hcc3 => hs c hcc1 (by omega) hcc3)
    · rw [if_neg (fun hc => hc1 (hcond.1 hc))]
      refine ⟨ih1, ?_, ?_⟩
      · intro c hcc1 hcc2 hcc3
        have hcm : c ≤ m := by
          rcases Nat.lt_or_ge c (m + 1) with hh | hh
          · omega
          · exact absurd (by omega : c = m + 1) (fun hce => hc1 (hce ▸ hcc3))
        exact ih2 c hcc1 hcm hcc3
      · intro s hs
        exact ih3 s (fun c hcc1 hcc2 hcc3 => hs c hcc1 (by omega) hcc3)

/-- The suffix-placement fold of `qsufInit`: each processed index is stored at
its bucket start plus its occurrence rank, and every filled slot of a bucket
holds the index whose rank points back at that slot. -/
theorem placeFold_spec (obuf : List ℕ) (hby : ∀ d ∈ obuf, d < 256) :
    ∀ rest pre : List ℕ, ∀ B A : List ℤ,
      obuf = pre ++ rest →
      B.length = 256 →
      A.length = obuf.length + 1 →
      (∀ c : ℕ, c < 256 → B.getD c 0 = ((cumB obuf c + cnt pre c : ℕ) : ℤ)) →
      (∀ c : ℕ, c < 256 → ∀ s : ℤ, (cumB obuf c : ℤ) + 1 ≤ s →
        s ≤ (cumB obuf c : ℤ) + cnt pre c → ∃ idx : ℕ, idx < pre.length ∧
          obuf.getD idx 0 = c ∧
          ((cumB obuf c + cnt (obuf.take (idx + 1)) c : ℕ) : ℤ) = s ∧
          zget A s = idx) →
      ((List.enumFrom pre.length rest).foldl
        (fun (p : List ℤ × List ℤ) ic =>
          let B1 := p.1.set ic.2 (p.1.getD ic.2 0 + 1)
          (B1, zset p.2 (B1.getD ic.2 0) (ic.1 : ℤ))) (B, A)).1.length = 256 ∧
      ((List.enumFrom pre.length rest).foldl
        (fun (p : List ℤ × List ℤ) ic =>
          let B1 := p.1.set ic.2 (p.1.getD ic.2 0 + 1)
          (B1, zset p.2 (B1.getD ic.2 0) (ic.1 : ℤ))) (B, A)).2.length
        = obuf.length + 1 ∧
      (∀ c : ℕ, c < 256 →
        ((List.enumFrom pre.length rest).foldl
          (fun (p : List ℤ × List ℤ) ic =>
            let B1 := p.1.set ic.2 (p.1.getD ic.2 0 + 1)
            (B1, zset p.2 (B1.getD ic.2 0) (ic.1 : ℤ))) (B, A)).1.getD c 0
          = ((cumB obuf c + cnt obuf c : ℕ) : ℤ)) ∧
      (∀ c : ℕ, c < 256 → ∀ s : ℤ, (cumB obuf c : ℤ) + 1 ≤ s →
        s ≤ (cumB obuf c : ℤ) + cnt obuf c → ∃ idx : ℕ, idx < obuf.length ∧
          obuf.getD idx 0 = c ∧
          ((cumB obuf c + cnt (obuf.take (idx + 1)) c : ℕ) : ℤ) = s ∧
          zget ((List.enumFrom pre.length rest).foldl
            (fun (p : List ℤ × List ℤ) ic =>
              let B1 := p.1.set ic.2 (p.1.getD ic.2 0 + 1)
              (B1, zset p.2 (B1.getD ic.2 0) (ic.1 : ℤ))) (B, A)).2 s = idx) := by
  intro rest
  induction rest with
  | nil =>
    intro pre B A hob hlB hlA hB hA
    rw [List.append_nil] at hob
    subst hob
    simp only [List.enumFrom, List.foldl_nil]
    exact ⟨hlB, hlA, hB, hA⟩
  | cons d rest' ih =>
    intro pre B A hob hlB hlA hB hA
    simp only [List.enumFrom, List.foldl_cons]
    have hd256 : d < 256 := by
      apply hby
      rw [hob]
      exact List.mem_append_right _ (List.mem_cons_self _ _)
    have hcntd : cnt obuf d = cnt pre d + cnt rest' d + 1 := by
      rw [hob, cnt_append, cnt_cons_self]
      omega
    have hcumd : cumB obuf d + cnt obuf d ≤ obuf.length := by
      have h1 : cumB obuf d + cnt obuf d = cumB obuf (d + 1) :=
        (cumB_succ obuf d).symm
      have h2 : cumB obuf (d + 1) ≤ cumB obuf 256 :=
        cumB_mono obuf (d + 1) 256 (by omega)
      rw [cumB_all obuf 256 hby] at h2
      omega
    have hw : (B.set d (B.getD d 0 + 1)).getD d 0
        = ((cumB obuf d + cnt pre d + 1 : ℕ) : ℤ) := by
      rw [getD_set_self B d _ (by omega), hB d hd256]
      push_cast
      ring
    have hcntc : ∀ c : ℕ, c ≠ d → cnt (pre ++ [d]) c = cnt pre c := by
      intro c hc
      rw [cnt_append]
      have hz : cnt [d] c = 0 := by
        simp only [cnt]
        rw [if_neg (fun hh : d = c => hc hh.symm)]
      omega
    have hdisj : ∀ c : ℕ, c < 256 → c ≠ d → ∀ s : ℤ,
        (cumB obuf c : ℤ) + 1 ≤ s → s ≤ (cumB obuf c : ℤ) + cnt pre c →
        s ≠ ((cumB obuf d + cnt pre d + 1 : ℕ) : ℤ) := by
      intro c hc hcd s hs1 hs2
      have hcc : cnt pre c ≤ cnt obuf c := by
        rw [hob, cnt_append]
        omega
      rcases Nat.lt_or_ge c d with hlt | hge
      · have h1 : cumB obuf c + cnt obuf c ≤ cumB obuf d := by
          have := cumB_mono obuf (c + 1) d (by omega)
          rw [cumB_succ] at this
          omega
        omega
      · have hdc : d < c := by omega
        have h1 : cumB obuf d + cnt obuf d ≤ cumB obuf c := by
          have := cumB_mono obuf (d + 1) c (by omega)
          rw [cumB_succ] at this
          omega
        omega
    have hres := ih (pre ++ [d]) (B.set d (B.getD d 0 + 1))
      (zset A ((B.set d (B.getD d 0 + 1)).getD d 0) (pre.length : ℤ))
      (by rw [hob, List.append_assoc, List.singleton_append])
      (by rw [List.length_set, hlB])
      (by rw [zset_length, hlA])
      ?_ ?_
    · rw [List.length_append, List.length_singleton] at hres
      exact hres
    · intro c hc
      by_cases hcd : c = d
      · subst hcd
        rw [getD_set_self B c _ (by omega), hB c hc, cnt_append, cnt_cons_self]
        push_cast
        simp [cnt]
        ring
      · rw [getD_set_ne B d c _ (fun h => hcd h.symm), hB c hc, hcntc c hcd]
    · intro c hc s hs1 hs2
      by_cases hcd : c = d
      · subst hcd
        rw [cnt_append, cnt_cons_self, show cnt [] c = 0 from rfl] at hs2
        rcases lt_or_eq_of_le hs2 with hslt | hseq
        · -- an old slot of bucket `c`
          obtain ⟨idx, hi1, hi2, hi3, hi4⟩ := hA c hc s hs1 (by push_cast at hslt ⊢; omega)
          refine ⟨idx, by rw [List.length_append, List.length_singleton]; omega,
            hi2, hi3, ?_⟩
          rw [hw, zget_zset_ne A _ _ s (by push_cast at hslt ⊢; omega)]
          exact hi4
        · -- the newly filled slot
          have hsval : s = ((cumB obuf c + cnt pre c + 1 : ℕ) : ℤ) := by
            push_cast at hseq ⊢
            omega
          refine ⟨pre.length, by rw [List.length_append, List.length_singleton]; omega,
            ?_, ?_, ?_⟩
          · rw [hob, getD_append_cons]
          · rw [hob, take_append_cons, ← hob, cnt_append, cnt_cons_self,
              show cnt ([] : List ℕ) c = 0 from rfl, hsval]
            push_cast
            ring
          · rw [hw, hsval]
            rw [zget_zset_self A _ _ (Int.natCast_nonneg _) (by rw [hlA]; omega)]
      · rw [hcntc c hcd] at hs2
        obtain ⟨idx, hi1, hi2, hi3, hi4⟩ := hA c hc s hs1 hs2
        refine ⟨idx, by rw [List.length_append, List.length_singleton]; omega,
          hi2, hi3, ?_⟩
        rw [hw, zget_zset_ne A _ _ s (hdisj c hc hcd s hs1 hs2)]
        exact hi4

end Wharf